import Mathlib

/-
Verification of the relationship-reflection and join/persistence engine of
the tuplesaver repository (a NamedTuple-to-SQLite persister).  The engine
implementation itself (metadata registry, relationship resolver, join-path
resolver, recursive persister) is not present among the provided source
files - only its documentation, design notes and example notebooks are - so
the definitions below are modelled from the specification, as the doc
comments state.  Field values, rows and the database are given as explicit
first-order data; machine-level concerns (SQL text, codecs, transactions)
are out of scope, exactly as in the specification.
-/

set_option maxHeartbeats 1000000

instance {ε α : Type} [DecidableEq ε] [DecidableEq α] : DecidableEq (Except ε α) := fun a b =>
  match a, b with
  | .ok x, .ok y =>
    if h : x = y then .isTrue (by rw [h]) else .isFalse (by intro hh; cases hh; exact h rfl)
  | .error x, .error y =>
    if h : x = y then .isTrue (by rw [h]) else .isFalse (by intro hh; cases hh; exact h rfl)
  | .ok _, .error _ => .isFalse (by intro hh; cases hh)
  | .error _, .ok _ => .isFalse (by intro hh; cases hh)

/-- A value as stored in a database column: an integer, a string, or NULL.
Foreign keys are stored as plain integers, as in SQLite. -/
inductive DBVal where
  | int (n : Int)
  | str (s : String)
  | null
deriving DecidableEq, Repr

/-- A field value of an in-memory row object: a scalar (integer or string),
an absent optional value, or a reference to another in-memory row object,
identified by its object identity. -/
inductive FieldVal where
  | int (n : Int)
  | str (s : String)
  | null
  | ref (oid : Nat)
deriving DecidableEq, Repr

/-- An in-memory row object: its model (record type) name, its id field
(none for an unpersisted row) and its remaining named field values. -/
structure HeapNode where
  model : String
  rid : Option Nat
  fields : List (String × FieldVal)
deriving DecidableEq, Repr

/-- The object graph a save call operates on: object identity to row object.
Object identity is explicit so that one unpersisted sub-row object reachable
via two paths, and reference cycles, can be represented. -/
abbrev Heap := List (Nat × HeapNode)

/-- The database: per-table rows (id to named column values) plus the next
id the autoincrementing id assignment will hand out. -/
structure DB where
  tables : List (String × List (Nat × List (String × DBVal)))
  nextId : Nat
deriving DecidableEq, Repr

def DB.getTable (db : DB) (t : String) : List (Nat × List (String × DBVal)) :=
  (db.tables.lookup t).getD []

def DB.setTable (db : DB) (t : String) (rows : List (Nat × List (String × DBVal))) : DB :=
  { db with tables := (t, rows) :: db.tables.filter (fun p => p.1 ≠ t) }

/-- Insert a fresh row (with the given already-chosen id) into a table and
advance the id counter. -/
def DB.insertRow (db : DB) (t : String) (i : Nat) (cols : List (String × DBVal)) : DB :=
  { db.setTable t ((i, cols) :: db.getTable t) with nextId := db.nextId + 1 }

/-- Overwrite the columns of the row with the given id. -/
def DB.updateRow (db : DB) (t : String) (i : Nat) (cols : List (String × DBVal)) : DB :=
  db.setTable t ((db.getTable t).map (fun p => if p.1 = i then (p.1, cols) else p))

def DB.getRow (db : DB) (t : String) (i : Nat) : Option (List (String × DBVal)) :=
  (db.getTable t).lookup i

def DB.empty : DB := ⟨[], 0⟩

/-- One database statement issued by the persister. -/
inductive Op where
  | insert (table : String) (rid : Nat)
  | update (table : String) (rid : Nat)
deriving DecidableEq, Repr

def Op.isUpdate : Op → Bool
  | .update _ _ => true
  | .insert _ _ => false

/-- Errors the persister can raise. -/
inductive SaveErr where
  | cycleDetected
  | fuelExhausted
  | missingObject
  | unpersistedReference
deriving DecidableEq, Repr

/-- State threaded through a single save call: the database, the identity
map from unpersisted object identity to the id assigned on its first
insert, and the (most recent first) log of statements issued. -/
structure SaveSt where
  db : DB
  idmap : List (Nat × Nat)
  log : List Op
deriving DecidableEq, Repr

/-- Encode a scalar field value as a column value (references are not
handled here; the persister substitutes the assigned id for them). -/
def encodeFV : FieldVal → DBVal
  | .int n => .int n
  | .str s => .str s
  | .null => .null
  | .ref _ => .null

/-- Modelled from the spec: the per-field walk of the recursive persister
(RecursivePersister, spec 4.4), abstracted over the function that saves one
referenced child object.  Scalar fields are encoded directly; each
forward-reference field first saves the child and then stores the assigned
id as the foreign-key column value. -/
def saveFieldsWith (save1 : SaveSt → Nat → Except SaveErr (Nat × SaveSt)) :
    SaveSt → List (String × FieldVal) → Except SaveErr (List (String × DBVal) × SaveSt)
  | st, [] => .ok ([], st)
  | st, (n, .ref o) :: fs =>
    match save1 st o with
    | .error e => .error e
    | .ok (i, st₂) =>
      match saveFieldsWith save1 st₂ fs with
      | .error e => .error e
      | .ok (cols, st₃) => .ok ((n, .int i) :: cols, st₃)
  | st, (n, v) :: fs =>
    match saveFieldsWith save1 st fs with
    | .error e => .error e
    | .ok (cols, st₃) => .ok ((n, encodeFV v) :: cols, st₃)

/-- Modelled from the spec: the depth-first deep save of RecursivePersister
(spec 4.4).  Forward-reference fields are walked first, post-order, then
the current row is inserted (id unset) or updated (id set).  Within one
call the identity of each unpersisted sub-row object is tracked, mapping it
to the id assigned on first insert, and that id is reused on later
encounters; a revisit of a node that is still being saved (on the in
progress list) raises the cycle error.  Fuel bounds the recursion depth so
the function is total; the top-level entry point passes enough fuel that
fuel exhaustion is unreachable (proved below). -/
def saveNode (heap : Heap) : Nat → List Nat → SaveSt → Nat → Except SaveErr (Nat × SaveSt)
  | 0, _, _, _ => .error .fuelExhausted
  | fuel + 1, inprog, st, oid =>
    if oid ∈ inprog then .error .cycleDetected
    else
      match heap.lookup oid with
      | none => .error .missingObject
      | some node =>
        match node.rid with
        | some i =>
          match saveFieldsWith (fun st₂ o => saveNode heap fuel (oid :: inprog) st₂ o) st node.fields with
          | .error e => .error e
          | .ok (cols, st₂) =>
            .ok (i, { st₂ with db := st₂.db.updateRow node.model i cols,
                               log := .update node.model i :: st₂.log })
        | none =>
          match st.idmap.lookup oid with
          | some i => .ok (i, st)
          | none =>
            match saveFieldsWith (fun st₂ o => saveNode heap fuel (oid :: inprog) st₂ o) st node.fields with
            | .error e => .error e
            | .ok (cols, st₂) =>
              let i := st₂.db.nextId
              .ok (i, { db := st₂.db.insertRow node.model i cols,
                        idmap := (oid, i) :: st₂.idmap,
                        log := .insert node.model i :: st₂.log })

/-- Modelled from the spec: the shallow column encoding (spec 4.4, deep set
to false): every forward-reference field must already reference a persisted
row, whose id becomes the foreign-key column value. -/
def shallowCols (heap : Heap) : List (String × FieldVal) → Except SaveErr (List (String × DBVal))
  | [] => .ok []
  | (n, .ref o) :: fs =>
    match heap.lookup o with
    | none => .error .missingObject
    | some node =>
      match node.rid with
      | none => .error .unpersistedReference
      | some j =>
        match shallowCols heap fs with
        | .error e => .error e
        | .ok cols => .ok ((n, .int j) :: cols)
  | (n, v) :: fs =>
    match shallowCols heap fs with
    | .error e => .error e
    | .ok cols => .ok ((n, encodeFV v) :: cols)

/-- The outcome of a save call: the id of the saved root row, the resulting
database, the identity map built during the call, and the statement log. -/
structure SaveResult where
  rid : Nat
  db : DB
  idmap : List (Nat × Nat)
  log : List Op
deriving DecidableEq, Repr

/-- Modelled from the spec: the public save entry point (spec 4.4),
`save(row, deep)`.  Insert versus update is decided solely by id presence.
With deep set, related rows are saved depth-first before the row itself,
with enough fuel for any graph whose references all resolve; with deep
unset only the own columns of the row are written. -/
def save (heap : Heap) (deep : Bool) (oid : Nat) (db : DB) : Except SaveErr SaveResult :=
  if deep then
    match saveNode heap (heap.length + 1) [] ⟨db, [], []⟩ oid with
    | .error e => .error e
    | .ok (i, st) => .ok ⟨i, st.db, st.idmap, st.log⟩
  else
    match heap.lookup oid with
    | none => .error .missingObject
    | some node =>
      match shallowCols heap node.fields with
      | .error e => .error e
      | .ok cols =>
        match node.rid with
        | none => .ok ⟨db.nextId, db.insertRow node.model db.nextId cols,
                       [], [.insert node.model db.nextId]⟩
        | some i => .ok ⟨i, db.updateRow node.model i cols, [], [.update node.model i]⟩

/-- The row object graph as returned from a save call: every originally
unpersisted object carries the id assigned to it in the identity map (save
returns copies with newly assigned ids; nothing else is changed). -/
def returnedRowGraph (heap : Heap) (idmap : List (Nat × Nat)) : Heap :=
  heap.map (fun p =>
    (p.1, match p.2.rid with
          | some _ => p.2
          | none => { p.2 with rid := idmap.lookup p.1 }))

/-- True when no field of the list is a forward reference. -/
def noRefs (fs : List (String × FieldVal)) : Bool :=
  fs.all (fun p => match p.2 with | .ref _ => false | _ => true)

/-- Every reference held by any object of the heap resolves to an object of
the heap. -/
def heapWF (heap : Heap) : Bool :=
  heap.all (fun p => p.2.fields.all (fun q =>
    match q.2 with
    | .ref o => (heap.lookup o).isSome
    | _ => true))

/-- All row objects of the heap are persisted (have their id set). -/
def allPersisted (heap : Heap) : Bool :=
  heap.all (fun p => p.2.rid.isSome)

/-- One forward-reference hop of the object graph: object `a` holds a
field referencing object `b`. -/
def edgeRef (heap : Heap) (a b : Nat) : Prop :=
  ∃ nd, heap.lookup a = some nd ∧ ∃ n, (n, FieldVal.ref b) ∈ nd.fields

/-- Reachability along forward-reference hops of the object graph. -/
def reaches (heap : Heap) : Nat → Nat → Prop :=
  Relation.ReflTransGen (edgeRef heap)

/-- A witness that the object graph is acyclic: a rank function under
which every forward-reference hop strictly descends. -/
def rankOk (heap : Heap) (rank : Nat → Nat) : Bool :=
  heap.all (fun p => p.2.fields.all (fun q =>
    match q.2 with
    | .ref b => decide (rank b < rank p.1)
    | _ => true))

/-- Whether some field of the list is a forward reference to `o`. -/
def refIn (o : Nat) (fs : List (String × FieldVal)) : Prop :=
  ∃ n, (n, FieldVal.ref o) ∈ fs

/-- The save-state extension produced by update statements alone: the
identity map unchanged and only update operations logged. -/
def updExt (st st' : SaveSt) : Prop :=
  st'.idmap = st.idmap ∧
  ∃ ops, st'.log = ops ++ st.log ∧ ∀ op ∈ ops, op.isUpdate = true

/-- The invariant of the cycle argument: nothing settled in the identity
map can reach the node `r` still being saved. -/
def settledAvoids (heap : Heap) (st : SaveSt) (r : Nat) : Prop :=
  ∀ a j, (a, j) ∈ st.idmap → ¬ reaches heap a r

/-- The kind of a registered record type (spec 3): backed one-to-one by a
table, backed by the table of another model but projecting a different
field subset, or backed by no table at all. -/
inductive ModelKind where
  | table
  | alt
  | adhoc
deriving DecidableEq, Repr

/-- The derived role and relational typing of one declared field (spec 3,
FieldSpec): a plain column, a forward reference to a named model
(optionally nullable), or a backpop (list-of-model) field. -/
inductive FieldType where
  | scalar
  | fref (target : String) (nullable : Bool)
  | backpop (target : String)
deriving DecidableEq, Repr

/-- Modelled from the spec: the ModelMeta of one registered record type
(spec 3) - its name, kind and ordered, named field list (the id field
first for table and alt kinds). -/
structure Model where
  name : String
  kind : ModelKind
  fields : List (String × FieldType)
deriving DecidableEq, Repr

/-- The registry of all registered record types. -/
abbrev Registry := List Model

def lookupModel (reg : Registry) (n : String) : Option Model :=
  reg.find? (fun m => m.name = n)

/-- Whether the first string is a prefix of the second (computed on the
character lists so that it evaluates definitionally). -/
def strIsPrefixOf (a b : String) : Bool :=
  a.toList.isPrefixOf b.toList

/-- The part of a class name before the first underscore. -/
def nameBeforeUnderscore (s : String) : String :=
  ⟨s.toList.takeWhile (fun c => c != '_')⟩

/-- Modelled from the spec: the backing table of a model.  A table model is
backed by the table of its own name; an alt model is backed by the table
named by the part of its class name before the first underscore. -/
def backingTable (m : Model) : String :=
  match m.kind with
  | .table => m.name
  | .alt => nameBeforeUnderscore m.name
  | .adhoc => m.name

/-- Errors of registration and relationship resolution (spec 7). -/
inductive RegErr where
  | registrationConflict
  | invalidIdentifierField
  | ambiguousForwardReference
  | ambiguousBackpop
  | notBackpopField
  | unregisteredModel
deriving DecidableEq, Repr

/-- The structural id-field invariant (spec 3): for table and alt models
the id field must be first; adhoc models have none. -/
def idFieldOk (m : Model) : Bool :=
  match m.kind with
  | .adhoc => m.fields.all (fun p => p.1 ≠ "id")
  | _ => match m.fields with
         | ("id", .scalar) :: _ => true
         | _ => false

/-- The forward-reference fields of a model, as (field name, target model
name) pairs, in declaration order. -/
def forwardFields (m : Model) : List (String × String) :=
  m.fields.filterMap (fun p =>
    match p.2 with
    | .fref t _ => some (p.1, t)
    | _ => none)

/-- Modelled from the spec: the registration-time cross-field ambiguity
check (spec 4.2): two forward-reference fields of one model that point at
the same related type while one field name is a strict prefix of the other
make the model ambiguous. -/
def hasAmbiguousForwardPair (m : Model) : Bool :=
  (forwardFields m).any (fun a =>
    (forwardFields m).any (fun b =>
      a.2 = b.2 && a.1 ≠ b.1 && strIsPrefixOf a.1 b.1))

/-- Modelled from the spec: registration of one record type into the
registry (MetadataRegistry, spec 4.1 and 4.2): the structural invariants
are validated and the cross-field forward-reference ambiguity is rejected
even when no backpop field references the model. -/
def register (reg : Registry) (m : Model) : Except RegErr Registry :=
  if ¬ idFieldOk m then .error .invalidIdentifierField
  else if hasAmbiguousForwardPair m then .error .ambiguousForwardReference
  else .ok (m :: reg)

/-- The candidate forward fields a backpop field on model `xname` typed as
a list of rows of model `y` can resolve to: the fields of `y` whose type
is `xname`, optionally nullable. -/
def backpopCandidates (y : Model) (xname : String) : List String :=
  y.fields.filterMap (fun p =>
    match p.2 with
    | .fref t _ => if t = xname then some p.1 else none
    | _ => none)

/-- Modelled from the spec: backpop resolution (RelationshipResolver, spec
4.2).  A backpop field on `x` typed as a list of `y` rows must match
exactly one field of `y` whose type is `x`: zero candidates are ambiguous;
a single candidate is the match regardless of naming; with several
candidates, the one whose full name is a prefix of the backpop field name
must be unique (the documented naming convention, for example backpop
manager_of against forward manager). -/
def resolve_backpop (reg : Registry) (x : Model) (f : String) : Except RegErr String :=
  match x.fields.lookup f with
  | some (.backpop yname) =>
    match lookupModel reg yname with
    | none => .error .unregisteredModel
    | some y =>
      match backpopCandidates y x.name with
      | [] => .error .ambiguousBackpop
      | [c] => .ok c
      | cs =>
        match cs.filter (fun c => strIsPrefixOf c f) with
        | [c] => .ok c
        | _ => .error .ambiguousBackpop
  | _ => .error .notBackpopField

/-- One join of a query plan: the ordered field-name path from the query
root that identifies the join, and the model joined by it. -/
structure JoinStep where
  key : List String
  table : String
deriving DecidableEq, Repr

inductive PathErr where
  | pathResolution
  | unregisteredModel
  | emptyPath
deriving DecidableEq, Repr

/-- Modelled from the spec: resolution of one dotted attribute path
(JoinPathResolver, spec 4.3).  Each non-terminal name must be a
forward-reference field on the current model and contributes one join step
keyed by the ordered field-name path walked so far; the terminal name must
be a field of the final model and contributes no join. -/
def resolvePath (reg : Registry) : Model → List String → List String → Except PathErr (List JoinStep)
  | _, _, [] => .error .emptyPath
  | m, _, [t] =>
    if (m.fields.lookup t).isSome then .ok [] else .error .pathResolution
  | m, walked, f :: rest =>
    match m.fields.lookup f with
    | some (.fref target _) =>
      match lookupModel reg target with
      | none => .error .unregisteredModel
      | some tm =>
        match resolvePath reg tm (walked ++ [f]) rest with
        | .error e => .error e
        | .ok steps => .ok (⟨walked ++ [f], target⟩ :: steps)
    | _ => .error .pathResolution

/-- Merge newly resolved join steps into the accumulated plan, keeping the
existing step whenever one with the same key (ordered field-name path) is
already present. -/
def addSteps (acc : List JoinStep) : List JoinStep → List JoinStep
  | [] => acc
  | s :: rest =>
    addSteps (if acc.any (fun a => a.key = s.key) then acc else acc ++ [s]) rest

def resolveQueryGo (reg : Registry) (root : Model) :
    List JoinStep → List (List String) → Except PathErr (List JoinStep)
  | acc, [] => .ok acc
  | acc, p :: ps =>
    match resolvePath reg root [] p with
    | .error e => .error e
    | .ok steps => resolveQueryGo reg root (addSteps acc steps) ps

/-- Modelled from the spec: the deduplicated join plan of one query (spec
4.3): the dotted paths of the query are resolved in order and their join
steps merged, so a join shared by several paths is emitted exactly once. -/
def resolveQuery (reg : Registry) (root : Model) (paths : List (List String)) :
    Except PathErr (List JoinStep) :=
  resolveQueryGo reg root [] paths

/-- A loaded (materialized) value: a scalar column value or a nested
loaded row with its model name, id and named field values. -/
inductive LoadVal where
  | int (n : Int)
  | str (s : String)
  | null
  | row (model : String) (rid : Nat) (fields : List (String × LoadVal))

/-- A stored column value as a loaded scalar. -/
def dbToLoad : DBVal → LoadVal
  | .int n => .int n
  | .str s => .str s
  | .null => .null

inductive EngErr where
  | recordNotFound
  | unregisteredModel
  | missingColumn
  | badForeignKey
  | fuelExhausted
deriving DecidableEq, Repr

/-- Modelled from the spec: decoding of the non-id fields of one model from
the named column values of a stored row (spec 4.4, load), abstracted over
the function that loads one referenced row by model name and id.  Scalar
fields pass the column value through; a forward-reference field follows the
stored integer foreign key (or stays absent when nullable and NULL);
backpop fields are not materialized by a find. -/
def decodeFields (loadRef : String → Nat → Except EngErr LoadVal) :
    List (String × FieldType) → List (String × DBVal) → Except EngErr (List (String × LoadVal))
  | [], _ => .ok []
  | (n, ft) :: fs, cols =>
    match cols.lookup n with
    | none => .error .missingColumn
    | some v =>
      let one : Except EngErr LoadVal :=
        match ft with
        | .scalar => .ok (dbToLoad v)
        | .backpop _ => .ok .null
        | .fref target nb =>
          match v with
          | .int (.ofNat i) => loadRef target i
          | .null => if nb then .ok .null else .error .badForeignKey
          | _ => .error .badForeignKey
      match one with
      | .error e => .error e
      | .ok lv =>
        match decodeFields loadRef fs cols with
        | .error e => .error e
        | .ok rest => .ok ((n, lv) :: rest)

/-- Modelled from the spec: `engine.find(Model, id)` - the row of the
backing table of the model with the given id, materialized onto the
declared fields of the model, raising the record-not-found error when no
row with that id exists. -/
def findRow (reg : Registry) (db : DB) : Nat → String → Nat → Except EngErr LoadVal
  | 0, _, _ => .error .fuelExhausted
  | fuel + 1, mname, rid =>
    match lookupModel reg mname with
    | none => .error .unregisteredModel
    | some m =>
      match db.getRow (backingTable m) rid with
      | none => .error .recordNotFound
      | some cols =>
        match decodeFields (fun t i => findRow reg db fuel t i) (m.fields.drop 1) cols with
        | .error e => .error e
        | .ok fs => .ok (.row mname rid fs)

/-- Whether a stored row satisfies every (column name, value) filter. -/
def rowMatches (cols : List (String × DBVal)) (filters : List (String × DBVal)) : Bool :=
  filters.all (fun q => cols.lookup q.1 = some q.2)

/-- The first stored row of the table satisfying the filters, if any. -/
def DB.firstMatch (db : DB) (t : String) (filters : List (String × DBVal)) :
    Option (Nat × List (String × DBVal)) :=
  (db.getTable t).find? (fun r => rowMatches r.2 filters)

/-- Modelled from the spec: `engine.find_by(Model, ...)` - the first row of
the backing table of the model matching the given field filters,
materialized like a find, except that the no-match case returns the absent
option instead of raising. -/
def find_by (reg : Registry) (db : DB) (fuel : Nat) (mname : String)
    (filters : List (String × DBVal)) : Except EngErr (Option LoadVal) :=
  match lookupModel reg mname with
  | none => .error .unregisteredModel
  | some m =>
    match db.firstMatch (backingTable m) filters with
    | none => .ok none
    | some (i, cols) =>
      match decodeFields (fun t j => findRow reg db fuel t j) (m.fields.drop 1) cols with
      | .error e => .error e
      | .ok fs => .ok (some (.row mname i fs))

/- ------------------------------------------------------------------ -/
/- Generic association-list helpers                                    -/
/- ------------------------------------------------------------------ -/

theorem lookup_mem {α β : Type} [BEq α] [LawfulBEq α] {l : List (α × β)} {a : α} {b : β}
    (h : l.lookup a = some b) : (a, b) ∈ l := by
  induction l with
  | nil => simp [List.lookup] at h
  | cons hd tl ih =>
    rw [List.lookup] at h
    cases hk : (a == hd.1) with
    | false =>
      rw [hk] at h
      exact List.mem_cons_of_mem _ (ih h)
    | true =>
      rw [hk] at h
      cases h
      have ha : a = hd.1 := eq_of_beq hk
      subst ha
      rw [Prod.mk.eta]
      exact List.mem_cons_self _ _

theorem lookup_isSome_of_mem_keys {α β : Type} [BEq α] [LawfulBEq α] {l : List (α × β)} {a : α}
    (h : a ∈ l.map Prod.fst) : (l.lookup a).isSome := by
  induction l with
  | nil => simp at h
  | cons hd tl ih =>
    rw [List.lookup]
    cases hk : (a == hd.1) with
    | true => rfl
    | false =>
      apply ih
      rcases List.mem_map.mp h with ⟨p, hp, hfst⟩
      rcases List.mem_cons.mp hp with h1 | h2
      · exfalso
        have ha : a = hd.1 := by rw [← hfst, h1]
        rw [ha] at hk
        simp at hk
      · exact List.mem_map.mpr ⟨p, h2, hfst⟩

theorem mem_keys_of_lookup {α β : Type} [BEq α] [LawfulBEq α] {l : List (α × β)} {a : α} {b : β}
    (h : l.lookup a = some b) : a ∈ l.map Prod.fst :=
  List.mem_map.mpr ⟨(a, b), lookup_mem h, rfl⟩

/- ------------------------------------------------------------------ -/
/- C3: prefix-ambiguous forward references are rejected at registration -/
/- ------------------------------------------------------------------ -/

/-- C3: for every model with two forward-reference fields pointing at the
same related type where one field name is a strict prefix of the other
(and an otherwise valid structure), registration raises
AmbiguousForwardReferenceError - no backpop field referencing them is
required. -/
theorem c3_prefix_forward_refs_rejected (reg : Registry) (m : Model)
    (hid : idFieldOk m = true)
    (n1 n2 t : String) (b1 b2 : Bool)
    (h1 : (n1, FieldType.fref t b1) ∈ m.fields)
    (h2 : (n2, FieldType.fref t b2) ∈ m.fields)
    (hne : n1 ≠ n2)
    (hpre : strIsPrefixOf n1 n2 = true) :
    register reg m = .error .ambiguousForwardReference := by
  have hamb : hasAmbiguousForwardPair m = true := by
    unfold hasAmbiguousForwardPair
    rw [List.any_eq_true]
    refine ⟨(n1, t), ?_, ?_⟩
    · unfold forwardFields
      exact List.mem_filterMap.mpr ⟨(n1, .fref t b1), h1, rfl⟩
    · rw [List.any_eq_true]
      refine ⟨(n2, t), ?_, ?_⟩
      · unfold forwardFields
        exact List.mem_filterMap.mpr ⟨(n2, .fref t b2), h2, rfl⟩
      · simp [hne, hpre]
  unfold register
  rw [hid, hamb]
  simp

/-- Witness for C3: the documented Project/Employee example - forward
fields lead and lead_developer both typed Employee, lead a strict prefix
of lead_developer, no backpop anywhere - is rejected. -/
theorem c3_prefix_forward_refs_rejected_witness :
    register []
      ⟨"Project", .table,
        [("id", .scalar), ("name", .scalar), ("manager", .fref "Employee" false),
         ("lead_developer", .fref "Employee" false), ("lead", .fref "Employee" false)]⟩ =
      .error .ambiguousForwardReference :=
  c3_prefix_forward_refs_rejected []
    ⟨"Project", .table,
      [("id", .scalar), ("name", .scalar), ("manager", .fref "Employee" false),
       ("lead_developer", .fref "Employee" false), ("lead", .fref "Employee" false)]⟩
    (by decide) "lead" "lead_developer" "Employee" false false
    (by decide) (by decide) (by decide) (by decide)

/- ------------------------------------------------------------------ -/
/- C2: backpop resolution with one or zero type-matching candidates     -/
/- ------------------------------------------------------------------ -/

/-- C2: for a backpop field f on model x typed as a list of y-rows, if
exactly one field on y has type x the resolution returns that field
regardless of the backpop field name, and if no field on y has type x the
resolution raises AmbiguousBackpopError. -/
theorem c2_backpop_zero_or_one_candidate (reg : Registry) (x y : Model) (f yname : String)
    (hf : x.fields.lookup f = some (.backpop yname))
    (hy : lookupModel reg yname = some y) :
    (backpopCandidates y x.name = [] →
      resolve_backpop reg x f = .error .ambiguousBackpop) ∧
    (∀ c, backpopCandidates y x.name = [c] → resolve_backpop reg x f = .ok c) := by
  constructor
  · intro h
    simp [resolve_backpop, hf, hy, h]
  · intro c h
    simp [resolve_backpop, hf, hy, h]

/-- Witness for C2: the documented Team.teams example with no Person field
referencing Team raises AmbiguousBackpopError, and a single candidate is
matched regardless of the backpop field name (backpop players resolves to
forward team). -/
theorem c2_backpop_zero_or_one_candidate_witness :
    resolve_backpop
      [⟨"Team", .table, [("id", .scalar), ("name", .scalar), ("teams", .backpop "Person")]⟩,
       ⟨"Person", .table, [("id", .scalar), ("name", .scalar)]⟩]
      ⟨"Team", .table, [("id", .scalar), ("name", .scalar), ("teams", .backpop "Person")]⟩
      "teams" = .error .ambiguousBackpop ∧
    resolve_backpop
      [⟨"Team", .table, [("id", .scalar), ("players", .backpop "Person")]⟩,
       ⟨"Person", .table, [("id", .scalar), ("team", .fref "Team" false)]⟩]
      ⟨"Team", .table, [("id", .scalar), ("players", .backpop "Person")]⟩
      "players" = .ok "team" :=
  ⟨(c2_backpop_zero_or_one_candidate _ _
      ⟨"Person", .table, [("id", .scalar), ("name", .scalar)]⟩ "teams" "Person"
      (by decide) (by decide)).1 (by decide),
   (c2_backpop_zero_or_one_candidate _ _
      ⟨"Person", .table, [("id", .scalar), ("team", .fref "Team" false)]⟩ "players" "Person"
      (by decide) (by decide)).2 "team" (by decide)⟩

/- ------------------------------------------------------------------ -/
/- C4: join deduplication keyed by the ordered field-name path          -/
/- ------------------------------------------------------------------ -/

theorem resolvePath_key_mem (reg : Registry) :
    ∀ (path : List String) (m : Model) (walked : List String) (steps : List JoinStep),
      resolvePath reg m walked path = .ok steps →
      ∀ k, k + 1 < path.length → (walked ++ path.take (k + 1)) ∈ steps.map JoinStep.key := by
  intro path
  induction path with
  | nil =>
    intro m walked steps h k hk
    simp at hk
  | cons f rest ih =>
    intro m walked steps h k hk
    cases rest with
    | nil =>
      simp at hk
    | cons g rest2 =>
      simp only [resolvePath] at h
      cases hf : m.fields.lookup f with
      | none => simp [hf] at h
      | some ft =>
        cases ft with
        | scalar => simp [hf] at h
        | backpop yname => simp [hf] at h
        | fref target nb =>
          simp only [hf] at h
          cases hm : lookupModel reg target with
          | none => simp [hm] at h
          | some tm =>
            simp only [hm] at h
            cases hrec : resolvePath reg tm (walked ++ [f]) (g :: rest2) with
            | error e => simp [hrec] at h
            | ok steps2 =>
              simp only [hrec] at h
              injection h with h2
              subst h2
              cases k with
              | zero =>
                simp
              | succ j =>
                have hj : j + 1 < (g :: rest2).length := by
                  simpa using hk
                have hmem := ih tm (walked ++ [f]) steps2 hrec j hj
                have heq : walked ++ (f :: g :: rest2).take (j + 1 + 1) =
                    (walked ++ [f]) ++ (g :: rest2).take (j + 1) := by
                  simp [List.take_cons]
                rw [heq]
                simp only [List.map_cons]
                exact List.mem_cons_of_mem _ hmem

theorem key_mem_addSteps_left :
    ∀ (new acc : List JoinStep) (k : List String),
      k ∈ acc.map JoinStep.key → k ∈ (addSteps acc new).map JoinStep.key := by
  intro new
  induction new with
  | nil => intro acc k h; exact h
  | cons s rest ih =>
    intro acc k h
    rw [addSteps]
    by_cases hc : acc.any (fun a => a.key = s.key)
    · rw [if_pos hc]
      exact ih acc k h
    · rw [if_neg hc]
      apply ih
      rw [List.map_append]
      exact List.mem_append_left _ h

theorem key_mem_addSteps_right :
    ∀ (new acc : List JoinStep) (k : List String),
      k ∈ new.map JoinStep.key → k ∈ (addSteps acc new).map JoinStep.key := by
  intro new
  induction new with
  | nil => intro acc k h; simp at h
  | cons s rest ih =>
    intro acc k h
    rw [List.map_cons] at h
    rcases List.mem_cons.mp h with h1 | h2
    · subst h1
      rw [addSteps]
      by_cases hc : acc.any (fun a => a.key = s.key)
      · apply key_mem_addSteps_left
        rw [if_pos hc]
        rcases List.any_eq_true.mp hc with ⟨a, ha, hak⟩
        have : a.key = s.key := by simpa using hak
        rw [← this]
        exact List.mem_map.mpr ⟨a, ha, rfl⟩
      · apply key_mem_addSteps_left
        rw [if_neg hc]
        rw [List.map_append]
        exact List.mem_append_right _ (by simp)
    · rw [addSteps]
      by_cases hc : acc.any (fun a => a.key = s.key)
      · rw [if_pos hc]; exact ih acc k h2
      · rw [if_neg hc]; exact ih _ k h2

theorem addSteps_nodup :
    ∀ (new acc : List JoinStep),
      (acc.map JoinStep.key).Nodup → ((addSteps acc new).map JoinStep.key).Nodup := by
  intro new
  induction new with
  | nil => intro acc h; exact h
  | cons s rest ih =>
    intro acc h
    rw [addSteps]
    by_cases hc : acc.any (fun a => a.key = s.key)
    · rw [if_pos hc]; exact ih acc h
    · rw [if_neg hc]
      apply ih
      rw [List.map_append, List.nodup_append]
      refine ⟨h, by simp, ?_⟩
      intro k hk hk2
      apply hc
      simp at hk2
      rcases List.mem_map.mp hk with ⟨a, ha, hak⟩
      exact List.any_eq_true.mpr ⟨a, ha, by simp [hak, hk2]⟩

theorem count_one_of_nodup_mem {α : Type} [BEq α] [LawfulBEq α] {l : List α} {x : α}
    (hnd : l.Nodup) (hm : x ∈ l) : l.count x = 1 := by
  induction l with
  | nil => simp at hm
  | cons a tl ih =>
    rw [List.count_cons]
    rcases List.mem_cons.mp hm with h1 | h2
    · subst h1
      have hnotm : x ∉ tl := (List.nodup_cons.mp hnd).1
      simp [List.count_eq_zero.mpr hnotm]
    · have hne : ¬(a == x) = true := by
        intro hb
        have : a = x := eq_of_beq hb
        subst this
        exact (List.nodup_cons.mp hnd).1 h2
      rw [if_neg hne, Nat.add_zero]
      exact ih (List.nodup_cons.mp hnd).2 h2

theorem resolveQueryGo_spec (reg : Registry) (root : Model) :
    ∀ (ps : List (List String)) (acc res : List JoinStep),
      (acc.map JoinStep.key).Nodup →
      resolveQueryGo reg root acc ps = .ok res →
      (res.map JoinStep.key).Nodup ∧
      (∀ k ∈ acc.map JoinStep.key, k ∈ res.map JoinStep.key) ∧
      (∀ p ∈ ps, ∀ j, j + 1 < p.length → p.take (j + 1) ∈ res.map JoinStep.key) := by
  intro ps
  induction ps with
  | nil =>
    intro acc res hnd h
    simp only [resolveQueryGo] at h
    injection h with h2
    subst h2
    exact ⟨hnd, fun k hk => hk, by simp⟩
  | cons p ps2 ih =>
    intro acc res hnd h
    simp only [resolveQueryGo] at h
    cases hp : resolvePath reg root [] p with
    | error e => simp [hp] at h
    | ok steps =>
      simp only [hp] at h
      have hnd2 : ((addSteps acc steps).map JoinStep.key).Nodup := addSteps_nodup steps acc hnd
      rcases ih (addSteps acc steps) res hnd2 h with ⟨h1, h2, h3⟩
      refine ⟨h1, ?_, ?_⟩
      · intro k hk
        exact h2 k (key_mem_addSteps_left steps acc k hk)
      · intro q hq j hj
        rcases List.mem_cons.mp hq with hq1 | hq2
        · subst hq1
          apply h2
          apply key_mem_addSteps_right
          have := resolvePath_key_mem reg q root [] steps hp j hj
          simpa using this
        · exact h3 q hq2 j hj

/-- C4: whenever a query resolves a set of dotted paths, the resulting
join plan contains each join key (ordered field-name path) exactly once,
and every join needed by any of the paths is present - so two paths
sharing a join path share the single emitted join step. -/
theorem c4_join_dedup_by_key (reg : Registry) (root : Model)
    (paths : List (List String)) (res : List JoinStep)
    (h : resolveQuery reg root paths = .ok res) :
    (res.map JoinStep.key).Nodup ∧
    ∀ p ∈ paths, ∀ j, j + 1 < p.length →
      (res.map JoinStep.key).count (p.take (j + 1)) = 1 := by
  rcases resolveQueryGo_spec reg root paths [] res (by simp) h with ⟨h1, _, h3⟩
  refine ⟨h1, fun p hp j hj => ?_⟩
  exact count_one_of_nodup_mem h1 (h3 p hp j hj)

/-- Witness for C4: resolving the documented Athlete query paths
team.teamname and team.league.leaguename yields one plan in which the
shared team join appears exactly once (and the team.league join once). -/
theorem c4_join_dedup_by_key_witness :
    resolveQuery
      [⟨"Athlete", .table, [("id", .scalar), ("name", .scalar), ("team", .fref "Team" false)]⟩,
       ⟨"Team", .table, [("id", .scalar), ("teamname", .scalar), ("league", .fref "League" false)]⟩,
       ⟨"League", .table, [("id", .scalar), ("leaguename", .scalar)]⟩]
      ⟨"Athlete", .table, [("id", .scalar), ("name", .scalar), ("team", .fref "Team" false)]⟩
      [["team", "teamname"], ["team", "league", "leaguename"]] =
      .ok [⟨["team"], "Team"⟩, ⟨["team", "league"], "League"⟩] ∧
    ([⟨["team"], "Team"⟩, ⟨["team", "league"], "League"⟩].map JoinStep.key).count ["team"] = 1 := by
  constructor
  · decide
  · have h := c4_join_dedup_by_key
      [⟨"Athlete", .table, [("id", .scalar), ("name", .scalar), ("team", .fref "Team" false)]⟩,
       ⟨"Team", .table, [("id", .scalar), ("teamname", .scalar), ("league", .fref "League" false)]⟩,
       ⟨"League", .table, [("id", .scalar), ("leaguename", .scalar)]⟩]
      ⟨"Athlete", .table, [("id", .scalar), ("name", .scalar), ("team", .fref "Team" false)]⟩
      [["team", "teamname"], ["team", "league", "leaguename"]]
      [⟨["team"], "Team"⟩, ⟨["team", "league"], "League"⟩]
      (by decide)
    exact h.2 ["team", "teamname"] (by decide) 0 (by decide)

/- ------------------------------------------------------------------ -/
/- C9: find raises RecordNotFoundError, find_by returns none           -/
/- ------------------------------------------------------------------ -/

/-- C9: at the public find interface the two lookups differ only in their
no-match behaviour: find raises the record-not-found error when no row
with the given id exists, find_by answers the absent option when no row
matches, and whenever both locate the same stored row they produce the
same materialized result. -/
theorem c9_find_raises_find_by_returns_none (reg : Registry) (db : DB) (fuel : Nat)
    (m : Model) (hm : lookupModel reg m.name = some m)
    (rid : Nat) (filters : List (String × DBVal)) :
    (db.getRow (backingTable m) rid = none →
      findRow reg db (fuel + 1) m.name rid = .error .recordNotFound) ∧
    (db.firstMatch (backingTable m) filters = none →
      find_by reg db fuel m.name filters = .ok none) ∧
    (∀ i cols, db.firstMatch (backingTable m) filters = some (i, cols) →
      db.getRow (backingTable m) i = some cols →
      find_by reg db fuel m.name filters = Except.map some (findRow reg db (fuel + 1) m.name i)) := by
  refine ⟨?_, ?_, ?_⟩
  · intro h
    simp [findRow, hm, h]
  · intro h
    simp [find_by, hm, h]
  · intro i cols hmatch hrow
    simp only [find_by, findRow, hm, hmatch, hrow]
    cases hdec : decodeFields (fun t j => findRow reg db fuel t j) (m.fields.drop 1) cols with
    | error e => rfl
    | ok fs => rfl

/-- Witness for C9: on a one-row Team table, find of a missing id raises
the record-not-found error, find_by of an unmatched filter answers the
absent option, and on the present row both produce the same result. -/
theorem c9_find_raises_find_by_returns_none_witness :
    (findRow [⟨"Team", .table, [("id", .scalar), ("teamname", .scalar)]⟩]
        ⟨[("Team", [(7, [("teamname", .str "Red")])])], 8⟩ 3 "Team" 99 =
      .error .recordNotFound) ∧
    (find_by [⟨"Team", .table, [("id", .scalar), ("teamname", .scalar)]⟩]
        ⟨[("Team", [(7, [("teamname", .str "Red")])])], 8⟩ 2 "Team" [("teamname", .str "Blue")] =
      .ok none) ∧
    (find_by [⟨"Team", .table, [("id", .scalar), ("teamname", .scalar)]⟩]
        ⟨[("Team", [(7, [("teamname", .str "Red")])])], 8⟩ 2 "Team" [("teamname", .str "Red")] =
      Except.map some
        (findRow [⟨"Team", .table, [("id", .scalar), ("teamname", .scalar)]⟩]
          ⟨[("Team", [(7, [("teamname", .str "Red")])])], 8⟩ 3 "Team" 7)) :=
  ⟨(c9_find_raises_find_by_returns_none _ _ 2
      ⟨"Team", .table, [("id", .scalar), ("teamname", .scalar)]⟩ (by decide) 99
      [("teamname", .str "Blue")]).1 (by decide),
   (c9_find_raises_find_by_returns_none _ _ 2
      ⟨"Team", .table, [("id", .scalar), ("teamname", .scalar)]⟩ (by decide) 99
      [("teamname", .str "Blue")]).2.1 (by decide),
   (c9_find_raises_find_by_returns_none _ _ 2
      ⟨"Team", .table, [("id", .scalar), ("teamname", .scalar)]⟩ (by decide) 99
      [("teamname", .str "Red")]).2.2 7 [("teamname", .str "Red")] (by decide) (by decide)⟩

/- ------------------------------------------------------------------ -/
/- Database and decoding helper lemmas                                 -/
/- ------------------------------------------------------------------ -/

theorem lookup_filter_ne {β : Type} :
    ∀ (l : List (String × β)) (t t' : String), t' ≠ t →
      (l.filter (fun p => p.1 ≠ t)).lookup t' = l.lookup t' := by
  intro l
  induction l with
  | nil => intro t t' h; rfl
  | cons hd tl ih =>
    intro t t' h
    rw [List.filter_cons]
    by_cases hk : hd.1 = t
    · have hd1 : decide (hd.1 ≠ t) = false := by simp [hk]
      rw [hd1]
      simp only [Bool.false_eq_true, if_false]
      rw [ih _ _ h, List.lookup]
      have hb : (t' == hd.1) = false := beq_eq_false_iff_ne.mpr (by rw [hk]; exact h)
      rw [hb]
    · have hd1 : decide (hd.1 ≠ t) = true := by simp [hk]
      rw [hd1]
      simp only [if_true]
      rw [List.lookup, List.lookup]
      cases hb : (t' == hd.1) with
      | true => rfl
      | false => exact ih _ _ h

theorem getTable_setTable_self (db : DB) (t : String) (rows : List (Nat × List (String × DBVal))) :
    (db.setTable t rows).getTable t = rows := by
  simp [DB.getTable, DB.setTable, List.lookup]

theorem getTable_setTable_ne (db : DB) (t t' : String)
    (rows : List (Nat × List (String × DBVal))) (h : t' ≠ t) :
    (db.setTable t rows).getTable t' = db.getTable t' := by
  unfold DB.getTable DB.setTable
  simp only
  rw [List.lookup]
  have hb : (t' == t) = false := beq_eq_false_iff_ne.mpr h
  rw [hb]
  rw [lookup_filter_ne _ _ _ h]

theorem getTable_insertRow_self (db : DB) (t : String) (i : Nat)
    (cols : List (String × DBVal)) :
    (db.insertRow t i cols).getTable t = (i, cols) :: db.getTable t := by
  unfold DB.insertRow
  have := getTable_setTable_self db t ((i, cols) :: db.getTable t)
  simpa [DB.getTable] using this

theorem getTable_insertRow_ne (db : DB) (t t' : String) (i : Nat)
    (cols : List (String × DBVal)) (h : t' ≠ t) :
    (db.insertRow t i cols).getTable t' = db.getTable t' := by
  unfold DB.insertRow
  have := getTable_setTable_ne db t t' ((i, cols) :: db.getTable t) h
  simpa [DB.getTable] using this

theorem nextId_insertRow (db : DB) (t : String) (i : Nat) (cols : List (String × DBVal)) :
    (db.insertRow t i cols).nextId = db.nextId + 1 := rfl

theorem lookup_map_fst_nodup {γ : Type} (g : FieldVal → γ) :
    ∀ (l : List (String × FieldVal)), (l.map Prod.fst).Nodup →
      ∀ p ∈ l, (l.map (fun q => (q.1, g q.2))).lookup p.1 = some (g p.2) := by
  intro l
  induction l with
  | nil => intro _ p hp; simp at hp
  | cons q tl ih =>
    intro hnd p hp
    rw [List.map_cons, List.lookup]
    rcases List.mem_cons.mp hp with h1 | h2
    · subst h1
      simp
    · have hq : q.1 ∉ tl.map Prod.fst := by
        rw [List.map_cons] at hnd
        exact (List.nodup_cons.mp hnd).1
      have hne : (p.1 == q.1) = false := by
        apply beq_eq_false_iff_ne.mpr
        intro hcontra
        apply hq
        rw [← hcontra]
        exact List.mem_map.mpr ⟨p, h2, rfl⟩
      rw [hne]
      have htl : (tl.map Prod.fst).Nodup := by
        rw [List.map_cons] at hnd
        exact (List.nodup_cons.mp hnd).2
      exact ih htl p h2

theorem decodeFields_all_scalar (loadRef : String → Nat → Except EngErr LoadVal) :
    ∀ (afs : List (String × FieldType)) (cols : List (String × DBVal)),
      (∀ p ∈ afs, p.2 = FieldType.scalar) →
      (∀ p ∈ afs, (cols.lookup p.1).isSome) →
      decodeFields loadRef afs cols =
        .ok (afs.map (fun p => (p.1, dbToLoad ((cols.lookup p.1).getD .null)))) := by
  intro afs
  induction afs with
  | nil => intro cols _ _; rfl
  | cons q tl ih =>
    intro cols hsc hsome
    have hq : q.2 = FieldType.scalar := hsc q (List.mem_cons_self _ _)
    have hqs : (cols.lookup q.1).isSome := hsome q (List.mem_cons_self _ _)
    cases hv : cols.lookup q.1 with
    | none => rw [hv] at hqs; simp at hqs
    | some v =>
      rcases q with ⟨n, ft⟩
      simp only at hq
      subst hq
      simp only [decodeFields, hv]
      rw [ih cols (fun p hp => hsc p (List.mem_cons_of_mem _ hp))
            (fun p hp => hsome p (List.mem_cons_of_mem _ hp))]
      simp [hv]

theorem decodeFields_encoded (loadRef : String → Nat → Except EngErr LoadVal) :
    ∀ (sfs : List (String × FieldVal)) (cols : List (String × DBVal)),
      (∀ p ∈ sfs, cols.lookup p.1 = some (encodeFV p.2)) →
      decodeFields loadRef (sfs.map (fun p => (p.1, FieldType.scalar))) cols =
        .ok (sfs.map (fun p => (p.1, dbToLoad (encodeFV p.2)))) := by
  intro sfs
  induction sfs with
  | nil => intro cols _; rfl
  | cons q tl ih =>
    intro cols h
    have hv : cols.lookup q.1 = some (encodeFV q.2) := h q (List.mem_cons_self _ _)
    simp only [List.map_cons, decodeFields, hv]
    rw [ih cols (fun p hp => h p (List.mem_cons_of_mem _ hp))]

/- ------------------------------------------------------------------ -/
/- C10: alt models read the table named before the first underscore    -/
/- ------------------------------------------------------------------ -/

/-- C10: for every alt model, find reads the backing table derived from
the class name as the prefix before the first underscore and returns the
stored row with the requested id projected onto the declared (scalar)
field subset of the alt model. -/
theorem c10_alt_model_reads_prefix_table (reg : Registry) (db : DB) (fuel : Nat)
    (A : Model) (hA : lookupModel reg A.name = some A) (hkind : A.kind = .alt)
    (afs : List (String × FieldType)) (hfields : A.fields = ("id", FieldType.scalar) :: afs)
    (hsc : ∀ p ∈ afs, p.2 = FieldType.scalar)
    (rid : Nat) (cols : List (String × DBVal))
    (hrow : db.getRow (nameBeforeUnderscore A.name) rid = some cols)
    (hcols : ∀ p ∈ afs, (cols.lookup p.1).isSome) :
    backingTable A = nameBeforeUnderscore A.name ∧
    findRow reg db (fuel + 1) A.name rid =
      .ok (.row A.name rid
        (afs.map (fun p => (p.1, dbToLoad ((cols.lookup p.1).getD .null))))) := by
  have hbt : backingTable A = nameBeforeUnderscore A.name := by
    unfold backingTable
    rw [hkind]
  refine ⟨hbt, ?_⟩
  simp only [findRow, hA, hbt, hrow, hfields, List.drop_succ_cons, List.drop_zero]
  rw [decodeFields_all_scalar _ afs cols hsc hcols]

/-- Witness for C10: the documented Team_NameOnly alt model reads the Team
table (name before the first underscore) and projects the stored Team row
onto its declared field subset, dropping the column it does not declare. -/
theorem c10_alt_model_reads_prefix_table_witness :
    backingTable ⟨"Team_NameOnly", .alt, [("id", .scalar), ("teamname", .scalar)]⟩ = "Team" ∧
    findRow
      [⟨"Team", .table, [("id", .scalar), ("teamname", .scalar), ("league", .fref "League" false)]⟩,
       ⟨"Team_NameOnly", .alt, [("id", .scalar), ("teamname", .scalar)]⟩]
      ⟨[("Team", [(7, [("teamname", .str "Red"), ("league", .int 3)])])], 8⟩
      3 "Team_NameOnly" 7 =
      .ok (.row "Team_NameOnly" 7 [("teamname", .str "Red")]) :=
  c10_alt_model_reads_prefix_table
    [⟨"Team", .table, [("id", .scalar), ("teamname", .scalar), ("league", .fref "League" false)]⟩,
     ⟨"Team_NameOnly", .alt, [("id", .scalar), ("teamname", .scalar)]⟩]
    ⟨[("Team", [(7, [("teamname", .str "Red"), ("league", .int 3)])])], 8⟩
    2 ⟨"Team_NameOnly", .alt, [("id", .scalar), ("teamname", .scalar)]⟩
    (by decide) (by decide) [("teamname", .scalar)] (by decide)
    (by decide) 7 [("teamname", .str "Red"), ("league", .int 3)] (by decide) (by decide)

/- ------------------------------------------------------------------ -/
/- C6: scalar-only rows round-trip through shallow save and find       -/
/- ------------------------------------------------------------------ -/

theorem shallowCols_noRefs (heap : Heap) :
    ∀ (fs : List (String × FieldVal)), noRefs fs = true →
      shallowCols heap fs = .ok (fs.map (fun p => (p.1, encodeFV p.2))) := by
  intro fs
  induction fs with
  | nil => intro _; rfl
  | cons q tl ih =>
    intro h
    have hq : (match q.2 with | FieldVal.ref _ => false | _ => true) = true := by
      have := (List.all_eq_true.mp h) q (List.mem_cons_self _ _)
      simpa using this
    have htl : noRefs tl = true := by
      apply List.all_eq_true.mpr
      intro p hp
      exact (List.all_eq_true.mp h) p (List.mem_cons_of_mem _ hp)
    rcases q with ⟨n, v⟩
    cases v with
    | ref o => simp at hq
    | int x => simp only [shallowCols, List.map_cons]; rw [ih htl]
    | str x => simp only [shallowCols, List.map_cons]; rw [ih htl]
    | null => simp only [shallowCols, List.map_cons]; rw [ih htl]

/-- C6: for every table-model row whose fields are all scalar, saving it
shallowly and loading it back by the assigned id returns a row equal to
the original in every field, with the id now the concrete (non-null)
integer assigned by the insert. -/
theorem c6_scalar_row_roundtrip (reg : Registry) (db : DB) (fuel : Nat) (M : Model)
    (hM : lookupModel reg M.name = some M) (hkind : M.kind = .table)
    (sfs : List (String × FieldVal)) (hnoR : noRefs sfs = true)
    (hnd : (sfs.map Prod.fst).Nodup)
    (hfields : M.fields = ("id", FieldType.scalar) :: sfs.map (fun p => (p.1, FieldType.scalar)))
    (heap : Heap) (oid : Nat) (hnode : heap.lookup oid = some ⟨M.name, none, sfs⟩) :
    ∃ res, save heap false oid db = .ok res ∧
      res.rid = db.nextId ∧
      findRow reg res.db (fuel + 1) M.name res.rid =
        .ok (.row M.name db.nextId (sfs.map (fun p => (p.1, dbToLoad (encodeFV p.2))))) := by
  refine ⟨⟨db.nextId,
           db.insertRow M.name db.nextId (sfs.map (fun p => (p.1, encodeFV p.2))),
           [], [.insert M.name db.nextId]⟩, ?_, rfl, ?_⟩
  · simp only [save, Bool.false_eq_true, if_false, hnode, shallowCols_noRefs heap sfs hnoR]
  · have hbt : backingTable M = M.name := by
      unfold backingTable
      rw [hkind]
    have hget : (db.insertRow M.name db.nextId (sfs.map (fun p => (p.1, encodeFV p.2)))).getRow
        M.name db.nextId = some (sfs.map (fun p => (p.1, encodeFV p.2))) := by
      unfold DB.getRow
      rw [getTable_insertRow_self, List.lookup]
      simp
    simp only [findRow, hM, hbt, hget, hfields, List.drop_succ_cons, List.drop_zero]
    rw [decodeFields_encoded _ sfs _ (fun p hp => lookup_map_fst_nodup encodeFV sfs hnd p hp)]

/-- Witness for C6: a concrete scalar-only MyModel row is inserted by a
shallow save and found again by the assigned id with all fields equal and
the id assigned. -/
theorem c6_scalar_row_roundtrip_witness :
    ∃ res,
      save [(4, ⟨"MyModel", none, [("name", .str "Bart"), ("score", .int 6)]⟩)] false 4
        ⟨[], 0⟩ = .ok res ∧
      res.rid = 0 ∧
      findRow [⟨"MyModel", .table, [("id", .scalar), ("name", .scalar), ("score", .scalar)]⟩]
          res.db 1 "MyModel" res.rid =
        .ok (.row "MyModel" 0 [("name", .str "Bart"), ("score", .int 6)]) :=
  c6_scalar_row_roundtrip
    [⟨"MyModel", .table, [("id", .scalar), ("name", .scalar), ("score", .scalar)]⟩]
    ⟨[], 0⟩ 0 ⟨"MyModel", .table, [("id", .scalar), ("name", .scalar), ("score", .scalar)]⟩
    (by decide) (by decide) [("name", .str "Bart"), ("score", .int 6)] (by decide)
    (by decide) (by decide)
    [(4, ⟨"MyModel", none, [("name", .str "Bart"), ("score", .int 6)]⟩)] 4 (by decide)

/- ------------------------------------------------------------------ -/
/- C1: a shared unpersisted sub-row object is inserted exactly once    -/
/- ------------------------------------------------------------------ -/

theorem saveFieldsWith_noRefs (save1 : SaveSt → Nat → Except SaveErr (Nat × SaveSt)) :
    ∀ (fs : List (String × FieldVal)), noRefs fs = true → ∀ st,
      saveFieldsWith save1 st fs = .ok (fs.map (fun p => (p.1, encodeFV p.2)), st) := by
  intro fs
  induction fs with
  | nil => intro _ st; rfl
  | cons q tl ih =>
    intro h st
    have hq : (match q.2 with | FieldVal.ref _ => false | _ => true) = true := by
      have := (List.all_eq_true.mp h) q (List.mem_cons_self _ _)
      simpa using this
    have htl : noRefs tl = true := by
      apply List.all_eq_true.mpr
      intro p hp
      exact (List.all_eq_true.mp h) p (List.mem_cons_of_mem _ hp)
    rcases q with ⟨n, v⟩
    cases v with
    | ref o => simp at hq
    | int x => simp only [saveFieldsWith, List.map_cons]; rw [ih htl]
    | str x => simp only [saveFieldsWith, List.map_cons]; rw [ih htl]
    | null => simp only [saveFieldsWith, List.map_cons]; rw [ih htl]

/-- C1: for every row whose two forward-reference fields both point at the
same unpersisted sub-row object, deep save inserts that sub-row exactly
once - one new row in its table, one insert statement logged for it - and
both foreign-key columns of the parent row hold the single id assigned on
the first insert, reused on the second encounter. -/
theorem c1_shared_unpersisted_subrow_inserted_once
    (Rm Sm n1 n2 : String) (rextra sfs : List (String × FieldVal)) (db : DB)
    (hR : noRefs rextra = true) (hS : noRefs sfs = true) (hMn : Sm ≠ Rm) :
    ∃ res,
      save [(0, ⟨Rm, none, (n1, .ref 1) :: (n2, .ref 1) :: rextra⟩), (1, ⟨Sm, none, sfs⟩)]
        true 0 db = .ok res ∧
      res.db.getTable Sm =
        (db.nextId, sfs.map (fun p => (p.1, encodeFV p.2))) :: db.getTable Sm ∧
      res.db.getTable Rm =
        (db.nextId + 1,
          (n1, .int db.nextId) :: (n2, .int db.nextId) ::
            rextra.map (fun p => (p.1, encodeFV p.2))) :: db.getTable Rm ∧
      res.log.countP (fun op => match op with | .insert t _ => t == Sm | _ => false) = 1 ∧
      res.rid = db.nextId + 1 := by
  refine ⟨⟨db.nextId + 1,
    (db.insertRow Sm db.nextId (sfs.map (fun p => (p.1, encodeFV p.2)))).insertRow Rm
      (db.nextId + 1)
      ((n1, .int db.nextId) :: (n2, .int db.nextId) ::
        rextra.map (fun p => (p.1, encodeFV p.2))),
    [(0, db.nextId + 1), (1, db.nextId)],
    [.insert Rm (db.nextId + 1), .insert Sm db.nextId]⟩, ?_, ?_, ?_, ?_, rfl⟩
  · simp [save, saveNode, saveFieldsWith, saveFieldsWith_noRefs, hS, hR,
      List.lookup, DB.insertRow, DB.setTable, DB.getTable]
  · rw [getTable_insertRow_ne _ _ _ _ _ hMn, getTable_insertRow_self]
  · rw [getTable_insertRow_self, getTable_insertRow_ne _ _ _ _ _ (Ne.symm hMn)]
  · have hRS : (Rm == Sm) = false := beq_eq_false_iff_ne.mpr (Ne.symm hMn)
    simp [List.countP_cons, hRS]

/-- Witness for C1: a concrete order row whose billing and shipping fields
both point at the same unpersisted customer object is deep-saved against
the empty database: the customer is inserted exactly once and both
foreign-key columns hold its single assigned id. -/
theorem c1_shared_unpersisted_subrow_inserted_once_witness :
    ∃ res,
      save [(0, ⟨"Order", none,
                 ("billing", .ref 1) :: ("shipping", .ref 1) :: [("note", .str "x")]⟩),
            (1, ⟨"Customer", none, [("name", .str "Ann")]⟩)] true 0 DB.empty = .ok res ∧
      res.db.getTable "Customer" =
        (DB.empty.nextId, [("name", .str "Ann")].map (fun p => (p.1, encodeFV p.2))) ::
          DB.empty.getTable "Customer" ∧
      res.db.getTable "Order" =
        (DB.empty.nextId + 1,
          ("billing", .int DB.empty.nextId) :: ("shipping", .int DB.empty.nextId) ::
            [("note", .str "x")].map (fun p => (p.1, encodeFV p.2))) ::
          DB.empty.getTable "Order" ∧
      res.log.countP
        (fun op => match op with | .insert t _ => t == "Customer" | _ => false) = 1 ∧
      res.rid = DB.empty.nextId + 1 :=
  c1_shared_unpersisted_subrow_inserted_once "Order" "Customer" "billing" "shipping"
    [("note", .str "x")] [("name", .str "Ann")] DB.empty (by decide) (by decide) (by decide)

/- ------------------------------------------------------------------ -/
/- Deep-save analysis: step equation and basic facts                   -/
/- ------------------------------------------------------------------ -/

theorem saveNode_succ_eq (heap : Heap) (fuel : Nat) (inprog : List Nat) (st : SaveSt)
    (oid : Nat) (hni : oid ∉ inprog) (nd : HeapNode) (hnd : heap.lookup oid = some nd) :
    saveNode heap (fuel + 1) inprog st oid =
      match nd.rid with
      | some i =>
        match saveFieldsWith (fun st₂ o => saveNode heap fuel (oid :: inprog) st₂ o) st nd.fields with
        | .error e => .error e
        | .ok (cols, st₂) =>
          .ok (i, ⟨st₂.db.updateRow nd.model i cols, st₂.idmap, .update nd.model i :: st₂.log⟩)
      | none =>
        match st.idmap.lookup oid with
        | some i => .ok (i, st)
        | none =>
          match saveFieldsWith (fun st₂ o => saveNode heap fuel (oid :: inprog) st₂ o) st nd.fields with
          | .error e => .error e
          | .ok (cols, st₂) =>
            .ok (st₂.db.nextId,
                 ⟨st₂.db.insertRow nd.model st₂.db.nextId cols,
                  (oid, st₂.db.nextId) :: st₂.idmap,
                  .insert nd.model st₂.db.nextId :: st₂.log⟩) := by
  rw [saveNode, if_neg hni, hnd]

theorem heapWF_ref {heap : Heap} (hwf : heapWF heap = true) {a : Nat} {nd : HeapNode}
    (hnd : heap.lookup a = some nd) {n : String} {b : Nat}
    (hm : (n, FieldVal.ref b) ∈ nd.fields) : (heap.lookup b).isSome := by
  have hmem := lookup_mem hnd
  have h1 : nd.fields.all (fun q =>
      match q.2 with
      | FieldVal.ref o => (heap.lookup o).isSome
      | _ => true) = true :=
    (List.all_eq_true.mp hwf) (a, nd) hmem
  exact (List.all_eq_true.mp h1) (n, FieldVal.ref b) hm

theorem rankOk_ref {heap : Heap} {rank : Nat → Nat} (hrk : rankOk heap rank = true)
    {a : Nat} {nd : HeapNode} (hnd : heap.lookup a = some nd) {n : String} {b : Nat}
    (hm : (n, FieldVal.ref b) ∈ nd.fields) : rank b < rank a := by
  have hmem := lookup_mem hnd
  have h1 : nd.fields.all (fun q =>
      match q.2 with
      | FieldVal.ref b => decide (rank b < rank a)
      | _ => true) = true :=
    (List.all_eq_true.mp hrk) (a, nd) hmem
  exact of_decide_eq_true ((List.all_eq_true.mp h1) (n, FieldVal.ref b) hm)

theorem allPersisted_lookup {heap : Heap} (hp : allPersisted heap = true) {a : Nat}
    {nd : HeapNode} (hnd : heap.lookup a = some nd) : nd.rid.isSome := by
  have hmem := lookup_mem hnd
  exact (List.all_eq_true.mp hp) (a, nd) hmem

theorem saveFieldsWith_success (save1 : SaveSt → Nat → Except SaveErr (Nat × SaveSt)) :
    ∀ (fs : List (String × FieldVal)),
      (∀ o, refIn o fs → ∀ st, ∃ i st', save1 st o = .ok (i, st')) →
      ∀ st, ∃ cols st', saveFieldsWith save1 st fs = .ok (cols, st') := by
  intro fs
  induction fs with
  | nil => intro _ st; exact ⟨[], st, rfl⟩
  | cons q tl ih =>
    intro hc st
    rcases q with ⟨n, v⟩
    have htl : ∀ o, refIn o tl → ∀ st₂, ∃ i st', save1 st₂ o = .ok (i, st') := by
      intro o ⟨nm, hm⟩ st₂
      exact hc o ⟨nm, List.mem_cons_of_mem _ hm⟩ st₂
    cases v with
    | ref o =>
      rcases hc o ⟨n, List.mem_cons_self _ _⟩ st with ⟨i, st₂, h1⟩
      rcases ih htl st₂ with ⟨cols, st₃, h2⟩
      refine ⟨(n, .int i) :: cols, st₃, ?_⟩
      simp only [saveFieldsWith, h1, h2]
    | int x =>
      rcases ih htl st with ⟨cols, st₃, h2⟩
      exact ⟨(n, .int x) :: cols, st₃, by simp only [saveFieldsWith, h2, encodeFV]⟩
    | str x =>
      rcases ih htl st with ⟨cols, st₃, h2⟩
      exact ⟨(n, .str x) :: cols, st₃, by simp only [saveFieldsWith, h2, encodeFV]⟩
    | null =>
      rcases ih htl st with ⟨cols, st₃, h2⟩
      exact ⟨(n, .null) :: cols, st₃, by simp only [saveFieldsWith, h2, encodeFV]⟩

theorem saveNode_success (heap : Heap) (rank : Nat → Nat)
    (hwf : heapWF heap = true) (hrk : rankOk heap rank = true) :
    ∀ (fuel : Nat) (oid : Nat) (inprog : List Nat) (st : SaveSt),
      (heap.lookup oid).isSome →
      (∀ w ∈ inprog, rank oid < rank w) →
      rank oid < fuel →
      ∃ i st', saveNode heap fuel inprog st oid = .ok (i, st') := by
  intro fuel
  induction fuel with
  | zero =>
    intro oid inprog st _ _ hf
    exact absurd hf (Nat.not_lt_zero _)
  | succ fuel ih =>
    intro oid inprog st hsome hgray hf
    have hni : oid ∉ inprog := fun h => absurd (hgray oid h) (lt_irrefl _)
    rcases Option.isSome_iff_exists.mp hsome with ⟨nd, hnd⟩
    have hbody := saveNode_succ_eq heap fuel inprog st oid hni nd hnd
    have hfields : ∀ st₂, ∃ cols st₃,
        saveFieldsWith (fun st₄ o => saveNode heap fuel (oid :: inprog) st₄ o) st₂ nd.fields =
          .ok (cols, st₃) := by
      intro st₂
      apply saveFieldsWith_success _ nd.fields
      intro o ⟨n, hm⟩ st₄
      apply ih o (oid :: inprog) st₄ (heapWF_ref hwf hnd hm)
      · intro w hw
        rcases List.mem_cons.mp hw with h1 | h2
        · subst h1
          exact rankOk_ref hrk hnd hm
        · exact lt_trans (rankOk_ref hrk hnd hm) (hgray w h2)
      · have h1 : rank o < rank oid := rankOk_ref hrk hnd hm
        omega
    cases hrid : nd.rid with
    | some i =>
      rw [hrid] at hbody
      rcases hfields st with ⟨cols, st₃, hfe⟩
      rw [hfe] at hbody
      exact ⟨i, _, hbody⟩
    | none =>
      rw [hrid] at hbody
      cases hmap : st.idmap.lookup oid with
      | some i =>
        rw [hmap] at hbody
        exact ⟨i, st, hbody⟩
      | none =>
        rw [hmap] at hbody
        rcases hfields st with ⟨cols, st₃, hfe⟩
        rw [hfe] at hbody
        exact ⟨st₃.db.nextId, _, hbody⟩

theorem updExt_refl (st : SaveSt) : updExt st st :=
  ⟨rfl, [], rfl, fun _ h => absurd h (List.not_mem_nil _)⟩

theorem updExt_trans {st₁ st₂ st₃ : SaveSt} (h1 : updExt st₁ st₂) (h2 : updExt st₂ st₃) :
    updExt st₁ st₃ := by
  rcases h1 with ⟨hi1, ops1, hl1, hu1⟩
  rcases h2 with ⟨hi2, ops2, hl2, hu2⟩
  refine ⟨hi2.trans hi1, ops2 ++ ops1, ?_, ?_⟩
  · rw [hl2, hl1, List.append_assoc]
  · intro op hop
    rcases List.mem_append.mp hop with h | h
    · exact hu2 op h
    · exact hu1 op h

theorem saveFieldsWith_updExt (save1 : SaveSt → Nat → Except SaveErr (Nat × SaveSt)) :
    ∀ (fs : List (String × FieldVal)),
      (∀ o, refIn o fs → ∀ st i st', save1 st o = .ok (i, st') → updExt st st') →
      ∀ st cols st', saveFieldsWith save1 st fs = .ok (cols, st') → updExt st st' := by
  intro fs
  induction fs with
  | nil =>
    intro _ st cols st' h
    simp only [saveFieldsWith] at h
    injection h with h2
    injection h2 with h3 h4
    rw [← h4]
    exact updExt_refl st
  | cons q tl ih =>
    intro hc st cols st' h
    have htl : ∀ o, refIn o tl → ∀ st₂ i st₃, save1 st₂ o = .ok (i, st₃) → updExt st₂ st₃ := by
      intro o ⟨nm, hm⟩
      exact hc o ⟨nm, List.mem_cons_of_mem _ hm⟩
    rcases q with ⟨n, v⟩
    cases v with
    | ref o =>
      simp only [saveFieldsWith] at h
      cases h1 : save1 st o with
      | error e => simp only [h1] at h; cases h
      | ok p =>
        rcases p with ⟨i, st₂⟩
        simp only [h1] at h
        cases h2 : saveFieldsWith save1 st₂ tl with
        | error e => simp only [h2] at h; cases h
        | ok p2 =>
          rcases p2 with ⟨cols2, st₃⟩
          simp only [h2] at h
          injection h with h3
          injection h3 with h4 h5
          rw [← h5]
          exact updExt_trans (hc o ⟨n, List.mem_cons_self _ _⟩ st i st₂ h1) (ih htl st₂ cols2 st₃ h2)
    | int x =>
      simp only [saveFieldsWith] at h
      cases h2 : saveFieldsWith save1 st tl with
      | error e => simp only [h2] at h; cases h
      | ok p2 =>
        rcases p2 with ⟨cols2, st₃⟩
        simp only [h2] at h
        injection h with h3
        injection h3 with h4 h5
        rw [← h5]
        exact ih htl st cols2 st₃ h2
    | str x =>
      simp only [saveFieldsWith] at h
      cases h2 : saveFieldsWith save1 st tl with
      | error e => simp only [h2] at h; cases h
      | ok p2 =>
        rcases p2 with ⟨cols2, st₃⟩
        simp only [h2] at h
        injection h with h3
        injection h3 with h4 h5
        rw [← h5]
        exact ih htl st cols2 st₃ h2
    | null =>
      simp only [saveFieldsWith] at h
      cases h2 : saveFieldsWith save1 st tl with
      | error e => simp only [h2] at h; cases h
      | ok p2 =>
        rcases p2 with ⟨cols2, st₃⟩
        simp only [h2] at h
        injection h with h3
        injection h3 with h4 h5
        rw [← h5]
        exact ih htl st cols2 st₃ h2

theorem saveNode_updExt (heap : Heap) (hp : allPersisted heap = true) :
    ∀ (fuel : Nat) (inprog : List Nat) (st : SaveSt) (oid : Nat) (i : Nat) (st' : SaveSt),
      saveNode heap fuel inprog st oid = .ok (i, st') →
      updExt st st' ∧ ∃ nd, heap.lookup oid = some nd ∧ nd.rid = some i := by
  intro fuel
  induction fuel with
  | zero =>
    intro inprog st oid i st' h
    cases h
  | succ fuel ih =>
    intro inprog st oid i st' h
    by_cases hni : oid ∈ inprog
    · rw [saveNode, if_pos hni] at h
      cases h
    · cases hnd : heap.lookup oid with
      | none =>
        rw [saveNode, if_neg hni, hnd] at h
        cases h
      | some nd =>
        have hbody := saveNode_succ_eq heap fuel inprog st oid hni nd hnd
        rw [hbody] at h
        have hps : nd.rid.isSome := allPersisted_lookup hp hnd
        cases hrid : nd.rid with
        | none => rw [hrid] at hps; cases hps
        | some j =>
          simp only [hrid] at h
          cases hfe : saveFieldsWith (fun st₂ o => saveNode heap fuel (oid :: inprog) st₂ o)
              st nd.fields with
          | error e => simp only [hfe] at h; cases h
          | ok p =>
            rcases p with ⟨cols, st₂⟩
            simp only [hfe] at h
            injection h with h2
            injection h2 with h3 h4
            have hext : updExt st st₂ := by
              apply saveFieldsWith_updExt _ nd.fields ?_ st cols st₂ hfe
              intro o _ st₄ i₂ st₅ hok
              exact (ih (oid :: inprog) st₄ o i₂ st₅ hok).1
            constructor
            · rw [← h4]
              rcases hext with ⟨hi, ops, hl, hu⟩
              refine ⟨hi, .update nd.model j :: ops, by rw [hl]; rfl, ?_⟩
              intro op hop
              rcases List.mem_cons.mp hop with h5 | h6
              · rw [h5]; rfl
              · exact hu op h6
            · refine ⟨nd, rfl, ?_⟩
              rw [h3] at hrid
              exact hrid

theorem returnedRowGraph_nil : ∀ (heap : Heap), returnedRowGraph heap [] = heap := by
  intro heap
  induction heap with
  | nil => rfl
  | cons p tl ih =>
    rcases p with ⟨a, nd⟩
    rcases nd with ⟨mo, rid, fls⟩
    unfold returnedRowGraph at *
    rw [List.map_cons, ih]
    cases rid with
    | some i => rfl
    | none => rfl

/-- C5: deep save of a row graph in which every object already has its id
set (as after a load) succeeds, performs only update statements - never an
insert - assigns no new id (the identity map stays empty), and returns the
row graph unchanged, its root id being the already-set id of the root. -/
theorem c5_loaded_row_deep_save_only_updates (heap : Heap) (oid : Nat) (db : DB)
    (rank : Nat → Nat)
    (hwf : heapWF heap = true) (hrk : rankOk heap rank = true)
    (hp : allPersisted heap = true) (hoid : (heap.lookup oid).isSome)
    (hfl : rank oid < heap.length + 1) :
    ∃ res, save heap true oid db = .ok res ∧
      (∀ op ∈ res.log, op.isUpdate = true) ∧
      res.idmap = [] ∧
      returnedRowGraph heap res.idmap = heap ∧
      ∃ nd, heap.lookup oid = some nd ∧ nd.rid = some res.rid := by
  rcases saveNode_success heap rank hwf hrk (heap.length + 1) oid [] ⟨db, [], []⟩ hoid
    (by intro w hw; cases hw) hfl with ⟨i, st', hok⟩
  rcases saveNode_updExt heap hp (heap.length + 1) [] ⟨db, [], []⟩ oid i st' hok with
    ⟨⟨hid, ops, hlog, hupd⟩, nd, hnd, hrid⟩
  refine ⟨⟨i, st'.db, st'.idmap, st'.log⟩, ?_, ?_, ?_, ?_, ⟨nd, hnd, hrid⟩⟩
  · have hs : save heap true oid db =
        match saveNode heap (heap.length + 1) [] ⟨db, [], []⟩ oid with
        | .error e => .error e
        | .ok (i, st) => .ok ⟨i, st.db, st.idmap, st.log⟩ := rfl
    rw [hs, hok]
  · show ∀ op ∈ st'.log, op.isUpdate = true
    intro op hop
    rw [hlog] at hop
    rcases List.mem_append.mp hop with h | h
    · exact hupd op h
    · cases h
  · show st'.idmap = []
    rw [hid]
  · show returnedRowGraph heap st'.idmap = heap
    rw [hid]
    exact returnedRowGraph_nil heap

/-- Witness for C5: a concrete fully-persisted band-member row graph is
deep-saved with only update statements, an empty identity map, an
unchanged returned row graph, and the already-set root id. -/
theorem c5_loaded_row_deep_save_only_updates_witness :
    ∃ res,
      save [(0, ⟨"BandMember", some 5, [("band", .ref 1), ("bandmembername", .str "Paul")]⟩),
            (1, ⟨"Band", some 3, [("bandname", .str "The Band")]⟩)] true 0
        ⟨[("BandMember", [(5, [("band", .int 3), ("bandmembername", .str "P")])]),
          ("Band", [(3, [("bandname", .str "B")])])], 9⟩ = .ok res ∧
      (∀ op ∈ res.log, op.isUpdate = true) ∧
      res.idmap = [] ∧
      returnedRowGraph
        [(0, ⟨"BandMember", some 5, [("band", .ref 1), ("bandmembername", .str "Paul")]⟩),
         (1, ⟨"Band", some 3, [("bandname", .str "The Band")]⟩)] res.idmap =
        [(0, ⟨"BandMember", some 5, [("band", .ref 1), ("bandmembername", .str "Paul")]⟩),
         (1, ⟨"Band", some 3, [("bandname", .str "The Band")]⟩)] ∧
      ∃ nd,
        ([(0, ⟨"BandMember", some 5, [("band", .ref 1), ("bandmembername", .str "Paul")]⟩),
          (1, ⟨"Band", some 3, [("bandname", .str "The Band")]⟩)] : Heap).lookup 0 = some nd ∧
        nd.rid = some res.rid :=
  c5_loaded_row_deep_save_only_updates
    [(0, ⟨"BandMember", some 5, [("band", .ref 1), ("bandmembername", .str "Paul")]⟩),
     (1, ⟨"Band", some 3, [("bandname", .str "The Band")]⟩)] 0
    ⟨[("BandMember", [(5, [("band", .int 3), ("bandmembername", .str "P")])]),
      ("Band", [(3, [("bandname", .str "B")])])], 9⟩
    (fun o => if o = 0 then 1 else 0)
    (by decide) (by decide) (by decide) (by decide) (by decide)

/- ------------------------------------------------------------------ -/
/- C7: cycle detection                                                 -/
/- ------------------------------------------------------------------ -/

theorem saveFieldsWith_idmap (heap : Heap) (save1 : SaveSt → Nat → Except SaveErr (Nat × SaveSt)) :
    ∀ (fs : List (String × FieldVal)),
      (∀ o, refIn o fs → ∀ st i st', save1 st o = .ok (i, st') →
        ∀ a j, (a, j) ∈ st'.idmap → (a, j) ∈ st.idmap ∨ reaches heap o a) →
      ∀ st cols st', saveFieldsWith save1 st fs = .ok (cols, st') →
      ∀ a j, (a, j) ∈ st'.idmap →
        (a, j) ∈ st.idmap ∨ ∃ c, refIn c fs ∧ reaches heap c a := by
  intro fs
  induction fs with
  | nil =>
    intro _ st cols st' h a j hm
    simp only [saveFieldsWith] at h
    injection h with h2
    injection h2 with h3 h4
    rw [← h4] at hm
    exact Or.inl hm
  | cons q tl ih =>
    intro hc st cols st' h a j hm
    have htl : ∀ o, refIn o tl → ∀ st₂ i st₃, save1 st₂ o = .ok (i, st₃) →
        ∀ a j, (a, j) ∈ st₃.idmap → (a, j) ∈ st₂.idmap ∨ reaches heap o a := by
      intro o ⟨nm, hmem⟩
      exact hc o ⟨nm, List.mem_cons_of_mem _ hmem⟩
    rcases q with ⟨n, v⟩
    cases v with
    | ref o =>
      simp only [saveFieldsWith] at h
      cases h1 : save1 st o with
      | error e => simp only [h1] at h; cases h
      | ok p =>
        rcases p with ⟨i, st₂⟩
        simp only [h1] at h
        cases h2 : saveFieldsWith save1 st₂ tl with
        | error e => simp only [h2] at h; cases h
        | ok p2 =>
          rcases p2 with ⟨cols2, st₃⟩
          simp only [h2] at h
          injection h with h3
          injection h3 with h4 h5
          rw [← h5] at hm
          rcases ih htl st₂ cols2 st₃ h2 a j hm with hin2 | ⟨c, hcr, hcre⟩
          · rcases hc o ⟨n, List.mem_cons_self _ _⟩ st i st₂ h1 a j hin2 with hin | hre
            · exact Or.inl hin
            · exact Or.inr ⟨o, ⟨n, List.mem_cons_self _ _⟩, hre⟩
          · rcases hcr with ⟨nm, hmem⟩
            exact Or.inr ⟨c, ⟨nm, List.mem_cons_of_mem _ hmem⟩, hcre⟩
    | int x =>
      simp only [saveFieldsWith] at h
      cases h2 : saveFieldsWith save1 st tl with
      | error e => simp only [h2] at h; cases h
      | ok p2 =>
        rcases p2 with ⟨cols2, st₃⟩
        simp only [h2] at h
        injection h with h3
        injection h3 with h4 h5
        rw [← h5] at hm
        rcases ih htl st cols2 st₃ h2 a j hm with hin | ⟨c, ⟨nm, hmem⟩, hcre⟩
        · exact Or.inl hin
        · exact Or.inr ⟨c, ⟨nm, List.mem_cons_of_mem _ hmem⟩, hcre⟩
    | str x =>
      simp only [saveFieldsWith] at h
      cases h2 : saveFieldsWith save1 st tl with
      | error e => simp only [h2] at h; cases h
      | ok p2 =>
        rcases p2 with ⟨cols2, st₃⟩
        simp only [h2] at h
        injection h with h3
        injection h3 with h4 h5
        rw [← h5] at hm
        rcases ih htl st cols2 st₃ h2 a j hm with hin | ⟨c, ⟨nm, hmem⟩, hcre⟩
        · exact Or.inl hin
        · exact Or.inr ⟨c, ⟨nm, List.mem_cons_of_mem _ hmem⟩, hcre⟩
    | null =>
      simp only [saveFieldsWith] at h
      cases h2 : saveFieldsWith save1 st tl with
      | error e => simp only [h2] at h; cases h
      | ok p2 =>
        rcases p2 with ⟨cols2, st₃⟩
        simp only [h2] at h
        injection h with h3
        injection h3 with h4 h5
        rw [← h5] at hm
        rcases ih htl st cols2 st₃ h2 a j hm with hin | ⟨c, ⟨nm, hmem⟩, hcre⟩
        · exact Or.inl hin
        · exact Or.inr ⟨c, ⟨nm, List.mem_cons_of_mem _ hmem⟩, hcre⟩

theorem saveNode_idmap (heap : Heap) :
    ∀ (fuel : Nat) (inprog : List Nat) (st : SaveSt) (oid i : Nat) (st' : SaveSt),
      saveNode heap fuel inprog st oid = .ok (i, st') →
      ∀ a j, (a, j) ∈ st'.idmap → (a, j) ∈ st.idmap ∨ reaches heap oid a := by
  intro fuel
  induction fuel with
  | zero => intro inprog st oid i st' h; cases h
  | succ fuel ih =>
    intro inprog st oid i st' h a j hm
    by_cases hni : oid ∈ inprog
    · rw [saveNode, if_pos hni] at h; cases h
    · cases hnd : heap.lookup oid with
      | none => rw [saveNode, if_neg hni, hnd] at h; cases h
      | some nd =>
        rw [saveNode_succ_eq heap fuel inprog st oid hni nd hnd] at h
        have hfprop : ∀ o, refIn o nd.fields →
            ∀ st₂ i₂ st₃, saveNode heap fuel (oid :: inprog) st₂ o = .ok (i₂, st₃) →
            ∀ a j, (a, j) ∈ st₃.idmap → (a, j) ∈ st₂.idmap ∨ reaches heap o a := by
          intro o _ st₂ i₂ st₃ hok
          exact ih (oid :: inprog) st₂ o i₂ st₃ hok
        have hlift : ∀ c, refIn c nd.fields → ∀ a, reaches heap c a → reaches heap oid a := by
          intro c ⟨nm, hmem⟩ a hre
          exact Relation.ReflTransGen.head ⟨nd, hnd, nm, hmem⟩ hre
        cases hrid : nd.rid with
        | some i0 =>
          simp only [hrid] at h
          cases hfe : saveFieldsWith (fun st₂ o => saveNode heap fuel (oid :: inprog) st₂ o)
              st nd.fields with
          | error e => simp only [hfe] at h; cases h
          | ok p =>
            rcases p with ⟨cols, st₂⟩
            simp only [hfe] at h
            injection h with h2
            injection h2 with h3 h4
            rw [← h4] at hm
            rcases saveFieldsWith_idmap heap _ nd.fields hfprop st cols st₂ hfe a j hm with
              hin | ⟨c, hcr, hcre⟩
            · exact Or.inl hin
            · exact Or.inr (hlift c hcr a hcre)
        | none =>
          simp only [hrid] at h
          cases hmap : st.idmap.lookup oid with
          | some i0 =>
            simp only [hmap] at h
            injection h with h2
            injection h2 with h3 h4
            rw [← h4] at hm
            exact Or.inl hm
          | none =>
            simp only [hmap] at h
            cases hfe : saveFieldsWith (fun st₂ o => saveNode heap fuel (oid :: inprog) st₂ o)
                st nd.fields with
            | error e => simp only [hfe] at h; cases h
            | ok p =>
              rcases p with ⟨cols, st₂⟩
              simp only [hfe] at h
              injection h with h2
              injection h2 with h3 h4
              rw [← h4] at hm
              rcases List.mem_cons.mp hm with h5 | h6
              · injection h5 with h7 h8
                rw [h7]
                exact Or.inr Relation.ReflTransGen.refl
              · rcases saveFieldsWith_idmap heap _ nd.fields hfprop st cols st₂ hfe a j h6 with
                  hin | ⟨c, hcr, hcre⟩
                · exact Or.inl hin
                · exact Or.inr (hlift c hcr a hcre)

theorem saveFieldsWith_nocycle (heap : Heap) (r : Nat)
    (save1 : SaveSt → Nat → Except SaveErr (Nat × SaveSt)) :
    ∀ (fs : List (String × FieldVal)),
      (∀ st o, settledAvoids heap st r → reaches heap o r →
        ∀ i st', save1 st o = .ok (i, st') → False) →
      (∀ st o i st', save1 st o = .ok (i, st') →
        ∀ a j, (a, j) ∈ st'.idmap → (a, j) ∈ st.idmap ∨ reaches heap o a) →
      ∀ st, settledAvoids heap st r →
        (∃ c, refIn c fs ∧ reaches heap c r) →
        ∀ cols st', saveFieldsWith save1 st fs = .ok (cols, st') → False := by
  intro fs
  induction fs with
  | nil =>
    intro _ _ st _ hex cols st' h
    rcases hex with ⟨c, ⟨nm, hmem⟩, _⟩
    cases hmem
  | cons q tl ih =>
    intro hK hA st hinv hex cols st' h
    rcases q with ⟨n, v⟩
    cases v with
    | ref o =>
      simp only [saveFieldsWith] at h
      cases h1 : save1 st o with
      | error e => simp only [h1] at h; cases h
      | ok p =>
        rcases p with ⟨i, st₂⟩
        simp only [h1] at h
        by_cases hor : reaches heap o r
        · exact hK st o hinv hor i st₂ h1
        · have hinv2 : settledAvoids heap st₂ r := by
            intro a j hm hre
            rcases hA st o i st₂ h1 a j hm with hin | hoa
            · exact hinv a j hin hre
            · exact hor (Relation.ReflTransGen.trans hoa hre)
          have hex2 : ∃ c, refIn c tl ∧ reaches heap c r := by
            rcases hex with ⟨c, ⟨nm, hmem⟩, hcre⟩
            rcases List.mem_cons.mp hmem with h5 | h6
            · injection h5 with h7 h8
              injection h8 with h9
              rw [h9] at hcre
              exact absurd hcre hor
            · exact ⟨c, ⟨nm, h6⟩, hcre⟩
          cases h2 : saveFieldsWith save1 st₂ tl with
          | error e => simp only [h2] at h; cases h
          | ok p2 =>
            rcases p2 with ⟨cols2, st₃⟩
            exact ih hK hA st₂ hinv2 hex2 cols2 st₃ h2
    | int x =>
      simp only [saveFieldsWith] at h
      have hex2 : ∃ c, refIn c tl ∧ reaches heap c r := by
        rcases hex with ⟨c, ⟨nm, hmem⟩, hcre⟩
        rcases List.mem_cons.mp hmem with h5 | h6
        · cases h5
        · exact ⟨c, ⟨nm, h6⟩, hcre⟩
      cases h2 : saveFieldsWith save1 st tl with
      | error e => simp only [h2] at h; cases h
      | ok p2 =>
        rcases p2 with ⟨cols2, st₃⟩
        exact ih hK hA st hinv hex2 cols2 st₃ h2
    | str x =>
      simp only [saveFieldsWith] at h
      have hex2 : ∃ c, refIn c tl ∧ reaches heap c r := by
        rcases hex with ⟨c, ⟨nm, hmem⟩, hcre⟩
        rcases List.mem_cons.mp hmem with h5 | h6
        · cases h5
        · exact ⟨c, ⟨nm, h6⟩, hcre⟩
      cases h2 : saveFieldsWith save1 st tl with
      | error e => simp only [h2] at h; cases h
      | ok p2 =>
        rcases p2 with ⟨cols2, st₃⟩
        exact ih hK hA st hinv hex2 cols2 st₃ h2
    | null =>
      simp only [saveFieldsWith] at h
      have hex2 : ∃ c, refIn c tl ∧ reaches heap c r := by
        rcases hex with ⟨c, ⟨nm, hmem⟩, hcre⟩
        rcases List.mem_cons.mp hmem with h5 | h6
        · cases h5
        · exact ⟨c, ⟨nm, h6⟩, hcre⟩
      cases h2 : saveFieldsWith save1 st tl with
      | error e => simp only [h2] at h; cases h
      | ok p2 =>
        rcases p2 with ⟨cols2, st₃⟩
        exact ih hK hA st hinv hex2 cols2 st₃ h2

theorem saveNode_nocycle (heap : Heap) (r : Nat) :
    ∀ (fuel : Nat) (inprog : List Nat) (st : SaveSt) (oid : Nat),
      r ∈ inprog → settledAvoids heap st r → reaches heap oid r →
      ∀ i st', saveNode heap fuel inprog st oid = .ok (i, st') → False := by
  intro fuel
  induction fuel with
  | zero => intro inprog st oid _ _ _ i st' h; cases h
  | succ fuel ih =>
    intro inprog st oid hr hinv hre i st' h
    by_cases hni : oid ∈ inprog
    · rw [saveNode, if_pos hni] at h; cases h
    · cases hnd : heap.lookup oid with
      | none => rw [saveNode, if_neg hni, hnd] at h; cases h
      | some nd =>
        rw [saveNode_succ_eq heap fuel inprog st oid hni nd hnd] at h
        have hoid_ne : oid ≠ r := fun hh => hni (hh ▸ hr)
        have hstep : ∃ c, refIn c nd.fields ∧ reaches heap c r := by
          rcases Relation.ReflTransGen.cases_head hre with h1 | ⟨c, hedge, hcr⟩
          · exact absurd h1 hoid_ne
          · rcases hedge with ⟨nd2, hnd2, nm, hmem⟩
            rw [hnd] at hnd2
            injection hnd2 with h3
            rw [← h3] at hmem
            exact ⟨c, ⟨nm, hmem⟩, hcr⟩
        have hK : ∀ st₂ o, settledAvoids heap st₂ r → reaches heap o r →
            ∀ i₂ st₃, saveNode heap fuel (oid :: inprog) st₂ o = .ok (i₂, st₃) → False := by
          intro st₂ o hinv2 hor i₂ st₃ hok
          exact ih (oid :: inprog) st₂ o (List.mem_cons_of_mem _ hr) hinv2 hor i₂ st₃ hok
        have hA : ∀ st₂ o i₂ st₃, saveNode heap fuel (oid :: inprog) st₂ o = .ok (i₂, st₃) →
            ∀ a j, (a, j) ∈ st₃.idmap → (a, j) ∈ st₂.idmap ∨ reaches heap o a := by
          intro st₂ o i₂ st₃ hok
          exact saveNode_idmap heap fuel (oid :: inprog) st₂ o i₂ st₃ hok
        cases hrid : nd.rid with
        | some i0 =>
          simp only [hrid] at h
          cases hfe : saveFieldsWith (fun st₂ o => saveNode heap fuel (oid :: inprog) st₂ o)
              st nd.fields with
          | error e => simp only [hfe] at h; cases h
          | ok p =>
            rcases p with ⟨cols, st₂⟩
            exact saveFieldsWith_nocycle heap r _ nd.fields hK hA st hinv hstep cols st₂ hfe
        | none =>
          simp only [hrid] at h
          cases hmap : st.idmap.lookup oid with
          | some i0 =>
            exact hinv oid i0 (lookup_mem hmap) hre
          | none =>
            simp only [hmap] at h
            cases hfe : saveFieldsWith (fun st₂ o => saveNode heap fuel (oid :: inprog) st₂ o)
                st nd.fields with
            | error e => simp only [hfe] at h; cases h
            | ok p =>
              rcases p with ⟨cols, st₂⟩
              exact saveFieldsWith_nocycle heap r _ nd.fields hK hA st hinv hstep cols st₂ hfe

theorem saveFieldsWith_err (save1 : SaveSt → Nat → Except SaveErr (Nat × SaveSt)) :
    ∀ (fs : List (String × FieldVal)),
      (∀ o, refIn o fs → ∀ st e, save1 st o = .error e → e = .cycleDetected) →
      ∀ st e, saveFieldsWith save1 st fs = .error e → e = .cycleDetected := by
  intro fs
  induction fs with
  | nil =>
    intro _ st e h
    cases h
  | cons q tl ih =>
    intro hc st e h
    have htl : ∀ o, refIn o tl → ∀ st₂ e₂, save1 st₂ o = .error e₂ → e₂ = .cycleDetected := by
      intro o ⟨nm, hmem⟩
      exact hc o ⟨nm, List.mem_cons_of_mem _ hmem⟩
    rcases q with ⟨n, v⟩
    cases v with
    | ref o =>
      simp only [saveFieldsWith] at h
      cases h1 : save1 st o with
      | error e2 =>
        simp only [h1] at h
        injection h with h2
        rw [← h2]
        exact hc o ⟨n, List.mem_cons_self _ _⟩ st e2 h1
      | ok p =>
        rcases p with ⟨i, st₂⟩
        simp only [h1] at h
        cases h2 : saveFieldsWith save1 st₂ tl with
        | error e2 =>
          simp only [h2] at h
          injection h with h3
          rw [← h3]
          exact ih htl st₂ e2 h2
        | ok p2 =>
          rcases p2 with ⟨cols2, st₃⟩
          simp only [h2] at h
          cases h
    | int x =>
      simp only [saveFieldsWith] at h
      cases h2 : saveFieldsWith save1 st tl with
      | error e2 =>
        simp only [h2] at h
        injection h with h3
        rw [← h3]
        exact ih htl st e2 h2
      | ok p2 =>
        rcases p2 with ⟨cols2, st₃⟩
        simp only [h2] at h
        cases h
    | str x =>
      simp only [saveFieldsWith] at h
      cases h2 : saveFieldsWith save1 st tl with
      | error e2 =>
        simp only [h2] at h
        injection h with h3
        rw [← h3]
        exact ih htl st e2 h2
      | ok p2 =>
        rcases p2 with ⟨cols2, st₃⟩
        simp only [h2] at h
        cases h
    | null =>
      simp only [saveFieldsWith] at h
      cases h2 : saveFieldsWith save1 st tl with
      | error e2 =>
        simp only [h2] at h
        injection h with h3
        rw [← h3]
        exact ih htl st e2 h2
      | ok p2 =>
        rcases p2 with ⟨cols2, st₃⟩
        simp only [h2] at h
        cases h

theorem saveNode_err (heap : Heap) (hwf : heapWF heap = true) :
    ∀ (fuel : Nat) (inprog : List Nat) (st : SaveSt) (oid : Nat) (e : SaveErr),
      inprog.Nodup → (∀ w ∈ inprog, w ∈ heap.map Prod.fst) → oid ∈ heap.map Prod.fst →
      heap.length < fuel + inprog.length →
      saveNode heap fuel inprog st oid = .error e → e = .cycleDetected := by
  intro fuel
  induction fuel with
  | zero =>
    intro inprog st oid e hnd hsub _ hbound h
    exfalso
    have hsp := List.subperm_of_subset hnd hsub
    have hlen := hsp.length_le
    rw [List.length_map] at hlen
    omega
  | succ fuel ih =>
    intro inprog st oid e hnodup hsub hoidmem hbound h
    by_cases hni : oid ∈ inprog
    · rw [saveNode, if_pos hni] at h
      injection h with h2
      exact h2.symm
    · cases hnd : heap.lookup oid with
      | none =>
        exfalso
        have := lookup_isSome_of_mem_keys hoidmem
        rw [hnd] at this
        cases this
      | some nd =>
        rw [saveNode_succ_eq heap fuel inprog st oid hni nd hnd] at h
        have hfprop : ∀ o, refIn o nd.fields →
            ∀ st₂ e₂, saveNode heap fuel (oid :: inprog) st₂ o = .error e₂ →
              e₂ = .cycleDetected := by
          intro o ⟨nm, hmem⟩ st₂ e₂ hok
          apply ih (oid :: inprog) st₂ o e₂ (List.nodup_cons.mpr ⟨hni, hnodup⟩) ?_ ?_ ?_ hok
          · intro w hw
            rcases List.mem_cons.mp hw with h1 | h2
            · rw [h1]; exact hoidmem
            · exact hsub w h2
          · have := heapWF_ref hwf hnd hmem
            rcases Option.isSome_iff_exists.mp this with ⟨nd2, hnd2⟩
            exact mem_keys_of_lookup hnd2
          · rw [List.length_cons]
            omega
        cases hrid : nd.rid with
        | some i0 =>
          simp only [hrid] at h
          cases hfe : saveFieldsWith (fun st₂ o => saveNode heap fuel (oid :: inprog) st₂ o)
              st nd.fields with
          | error e2 =>
            simp only [hfe] at h
            injection h with h2
            rw [← h2]
            exact saveFieldsWith_err _ nd.fields hfprop st e2 hfe
          | ok p =>
            rcases p with ⟨cols, st₂⟩
            simp only [hfe] at h
            cases h
        | none =>
          simp only [hrid] at h
          cases hmap : st.idmap.lookup oid with
          | some i0 =>
            simp only [hmap] at h
            cases h
          | none =>
            simp only [hmap] at h
            cases hfe : saveFieldsWith (fun st₂ o => saveNode heap fuel (oid :: inprog) st₂ o)
                st nd.fields with
            | error e2 =>
              simp only [hfe] at h
              injection h with h2
              rw [← h2]
              exact saveFieldsWith_err _ nd.fields hfprop st e2 hfe
            | ok p =>
              rcases p with ⟨cols, st₂⟩
              simp only [hfe] at h
              cases h

theorem saveNode_rootcycle (heap : Heap) (oid c : Nat)
    (hedge : edgeRef heap oid c) (hre : reaches heap c oid) :
    ∀ (fuel : Nat) (st : SaveSt) (i : Nat) (st' : SaveSt),
      st.idmap = [] → saveNode heap fuel [] st oid = .ok (i, st') → False := by
  intro fuel st i st' hid h
  cases fuel with
  | zero => cases h
  | succ fuel =>
    have hni : oid ∉ ([] : List Nat) := List.not_mem_nil oid
    rcases hedge with ⟨nd, hnd, n, hm⟩
    rw [saveNode_succ_eq heap fuel [] st oid hni nd hnd] at h
    have hinv : settledAvoids heap st oid := by
      intro a j hmm
      rw [hid] at hmm
      cases hmm
    have hstep : ∃ c2, refIn c2 nd.fields ∧ reaches heap c2 oid := ⟨c, ⟨n, hm⟩, hre⟩
    have hK : ∀ st₂ o, settledAvoids heap st₂ oid → reaches heap o oid →
        ∀ i₂ st₃, saveNode heap fuel [oid] st₂ o = .ok (i₂, st₃) → False := by
      intro st₂ o hinv2 hor i₂ st₃ hok
      exact saveNode_nocycle heap oid fuel [oid] st₂ o (List.mem_cons_self _ _) hinv2 hor i₂ st₃ hok
    have hA : ∀ st₂ o i₂ st₃, saveNode heap fuel [oid] st₂ o = .ok (i₂, st₃) →
        ∀ a j, (a, j) ∈ st₃.idmap → (a, j) ∈ st₂.idmap ∨ reaches heap o a := by
      intro st₂ o i₂ st₃ hok
      exact saveNode_idmap heap fuel [oid] st₂ o i₂ st₃ hok
    cases hrid : nd.rid with
    | some i0 =>
      simp only [hrid] at h
      cases hfe : saveFieldsWith (fun st₂ o => saveNode heap fuel [oid] st₂ o) st nd.fields with
      | error e => simp only [hfe] at h; cases h
      | ok p =>
        rcases p with ⟨cols, st₂⟩
        exact saveFieldsWith_nocycle heap oid _ nd.fields hK hA st hinv hstep cols st₂ hfe
    | none =>
      simp only [hrid] at h
      have hmap : st.idmap.lookup oid = none := by rw [hid]; rfl
      simp only [hmap] at h
      cases hfe : saveFieldsWith (fun st₂ o => saveNode heap fuel [oid] st₂ o) st nd.fields with
      | error e => simp only [hfe] at h; cases h
      | ok p =>
        rcases p with ⟨cols, st₂⟩
        exact saveFieldsWith_nocycle heap oid _ nd.fields hK hA st hinv hstep cols st₂ hfe

/-- C7: deep save of an object graph whose root lies on a true reference
cycle raises CycleDetectedError - the call terminates with that error
rather than looping forever or persisting silently. -/
theorem c7_cycle_raises_cycle_detected (heap : Heap) (oid c : Nat) (db : DB)
    (hwf : heapWF heap = true) (hoid : oid ∈ heap.map Prod.fst)
    (hedge : edgeRef heap oid c) (hre : reaches heap c oid) :
    save heap true oid db = .error .cycleDetected := by
  have hs : save heap true oid db =
      match saveNode heap (heap.length + 1) [] ⟨db, [], []⟩ oid with
      | .error e => .error e
      | .ok (i, st) => .ok ⟨i, st.db, st.idmap, st.log⟩ := rfl
  rw [hs]
  cases hres : saveNode heap (heap.length + 1) [] ⟨db, [], []⟩ oid with
  | ok p =>
    exfalso
    rcases p with ⟨i, st'⟩
    exact saveNode_rootcycle heap oid c hedge hre (heap.length + 1) ⟨db, [], []⟩ i st' rfl hres
  | error e =>
    have he : e = .cycleDetected := by
      apply saveNode_err heap hwf (heap.length + 1) [] ⟨db, [], []⟩ oid e List.nodup_nil
        (by intro w hw; cases hw) hoid (by simp) hres
    rw [he]

/-- Witness for C7: the documented three-object cycle A to B to C back to
A of unpersisted rows is rejected by deep save with CycleDetectedError. -/
theorem c7_cycle_raises_cycle_detected_witness :
    save [(0, ⟨"A", none, [("b", .ref 1)]⟩), (1, ⟨"B", none, [("c", .ref 2)]⟩),
          (2, ⟨"C", none, [("a", .ref 0)]⟩)] true 0 DB.empty = .error .cycleDetected := by
  have e12 : edgeRef [(0, ⟨"A", none, [("b", .ref 1)]⟩), (1, ⟨"B", none, [("c", .ref 2)]⟩),
      (2, ⟨"C", none, [("a", .ref 0)]⟩)] 1 2 :=
    ⟨⟨"B", none, [("c", .ref 2)]⟩, by decide, "c", by decide⟩
  have e20 : edgeRef [(0, ⟨"A", none, [("b", .ref 1)]⟩), (1, ⟨"B", none, [("c", .ref 2)]⟩),
      (2, ⟨"C", none, [("a", .ref 0)]⟩)] 2 0 :=
    ⟨⟨"C", none, [("a", .ref 0)]⟩, by decide, "a", by decide⟩
  exact c7_cycle_raises_cycle_detected
    [(0, ⟨"A", none, [("b", .ref 1)]⟩), (1, ⟨"B", none, [("c", .ref 2)]⟩),
     (2, ⟨"C", none, [("a", .ref 0)]⟩)] 0 1 DB.empty
    (by decide) (by decide)
    ⟨⟨"A", none, [("b", .ref 1)]⟩, by decide, "b", by decide⟩
    (Relation.ReflTransGen.head e12 (Relation.ReflTransGen.single e20))
